import Mathlib

/-!
Shallow embedding of the deposit-notification parser and monthly ledger logic
of `app.py` (contolegasto). Text is modelled as `List Char`; the SQLite tables
as Lean lists of row structures; Python `float` results as `ℚ` (the numerals
occurring here are exact decimals); `datetime.utcnow()` is passed in as an
explicit `Date` parameter.
-/

/-- Python `\s` on the characters relevant here (ASCII whitespace plus the
non-breaking space U+00A0, which `re` and `str.strip` treat as whitespace). -/
def pySpace (c : Char) : Bool :=
  c == ' ' || c == '\t' || c == '\n' || c == '\r' ||
  c == Char.ofNat 11 || c == Char.ofNat 12 || c == Char.ofNat 0xA0

/-- `[0-9]` as in the regexes of `app.py` (the codepoint range 48..57). -/
def isDig (c : Char) : Bool := 48 ≤ c.toNat && c.toNat ≤ 57

/-- The decimal digit character of a value `0..9` (only ever applied there). -/
def digCh : Nat → Char
  | 0 => '0' | 1 => '1' | 2 => '2' | 3 => '3' | 4 => '4'
  | 5 => '5' | 6 => '6' | 7 => '7' | 8 => '8' | _ => '9'

/-- Numeric value of a digit character. -/
def digVal (c : Char) : Nat := c.toNat - 48

/-- Value of a most-significant-first digit string, as `int()` reads it. -/
def ofDigits (l : List Char) : Nat := l.foldl (fun a c => a * 10 + digVal c) 0

/-- Python `str.strip()` (on the whitespace set modelled by `pySpace`). -/
def pyStrip (l : List Char) : List Char :=
  ((l.dropWhile pySpace).reverse.dropWhile pySpace).reverse

/-- Decimal representation of `n`, most significant digit first (fuelled;
`n + 1` units of fuel always suffice since `n / 10 < n` for `n ≥ 10`). -/
def natReprAux : Nat → Nat → List Char
  | 0, _ => []
  | fuel + 1, n => if n < 10 then [digCh n] else natReprAux fuel (n / 10) ++ [digCh (n % 10)]

/-- Decimal representation of `n`, as Python `str(n)` / `f"{n:d}"`. -/
def natRepr (n : Nat) : List Char := natReprAux (n + 1) n

/-- Left-pad with `'0'` to width `k`, as Python's `f"{n:0kd}"` does. -/
def padTo (k : Nat) (l : List Char) : List Char :=
  List.replicate (k - l.length) '0' ++ l

/-- The string `f"{y:04d}-{m:02d}-{d:02d}"` of `app.py`. -/
def dateChars (y m d : Nat) : List Char :=
  padTo 4 (natRepr y) ++ '-' :: (padTo 2 (natRepr m) ++ '-' :: padTo 2 (natRepr d))

/-- A calendar date, the abstract content of a `YYYY-MM-DD` column value. -/
structure Date where
  year : Nat
  month : Nat
  day : Nat
deriving DecidableEq, Repr

def Date.toChars (d : Date) : List Char := dateChars d.year d.month d.day

/-- Gregorian leap year, as `datetime` computes it. -/
def isLeap (y : Nat) : Bool := y % 4 == 0 && (y % 100 != 0 || y % 400 == 0)

/-- Days in a month, as `datetime` validates them. -/
def daysInMonth (y m : Nat) : Nat :=
  if m == 2 then (if isLeap y then 29 else 28)
  else if m == 4 || m == 6 || m == 9 || m == 11 then 30
  else 31

/-- A date `datetime(year, month, day)` accepts (`MINYEAR = 1`, `MAXYEAR = 9999`). -/
def validDate (d : Date) : Bool :=
  1 ≤ d.year && d.year ≤ 9999 && 1 ≤ d.month && d.month ≤ 12 &&
  1 ≤ d.day && d.day ≤ daysInMonth d.year d.month

/-- Python `float()` on the numeral shapes occurring in `app.py`
(`digits`, `digits.digits`, optionally signed); other inputs raise, modelled
as `none`. The magnitude part: the value of `ip.fp` is
`ofDigits ip + ofDigits fp / 10 ^ |fp| = (ofDigits (ip ++ fp)) / 10 ^ |fp|`,
written with `mkRat` so that it is kernel-computable. -/
def pyFloatMag (l : List Char) : Option ℚ :=
  let ip := l.takeWhile isDig
  match l.dropWhile isDig with
  | [] => if ip.isEmpty then none else some (mkRat (ofDigits ip) 1)
  | '.' :: rest =>
    let fp := rest.takeWhile isDig
    if !(rest.dropWhile isDig).isEmpty then none
    else if ip.isEmpty && fp.isEmpty then none
    else some (mkRat (ofDigits (ip ++ fp)) (10 ^ fp.length))
  | _ => none

/-- Python `float()` including an optional sign. -/
def pyFloat (l : List Char) : Option ℚ :=
  match l with
  | '-' :: t => (pyFloatMag t).map (fun q => -q)
  | '+' :: t => pyFloatMag t
  | _ => pyFloatMag l

/-- `to_decimal` of `app.py`: strip; if both `,` and `.` occur, drop the dots
(thousands separators) and turn the comma into the decimal point, else just
turn commas into decimal points; then `float()`. -/
def to_decimal (s : List Char) : Option ℚ :=
  let s := pyStrip s
  if s.contains ',' && s.contains '.' then
    pyFloat ((s.filter (fun c => c != '.')).map (fun c => if c == ',' then '.' else c))
  else
    pyFloat (s.map (fun c => if c == ',' then '.' else c))

/-! ### The regex matchers of `app.py`, as deterministic prefix matchers

Each `match…At` function decides whether the corresponding pattern matches at
the head of its argument (greediness of `\s*` / `[0-9]+` before a non-member
literal makes the Python engine deterministic here); `reSearch` then scans
positions left to right, exactly as `re.search` does. -/

/-- ASCII lower-casing, the effect of `re.IGNORECASE` on the ASCII literals. -/
def lowAscii (c : Char) : Char :=
  if 'A' ≤ c && c ≤ 'Z' then Char.ofNat (c.toNat + 32) else c

/-- Match a literal case-insensitively (pattern given in lowercase);
returns the rest of the input. -/
def matchLow : List Char → List Char → Option (List Char)
  | [], l => some l
  | _ :: _, [] => none
  | p :: ps, c :: cs => if lowAscii c == p then matchLow ps cs else none

/-- Match a literal case-sensitively; returns the rest of the input. -/
def matchLit : List Char → List Char → Option (List Char)
  | [], l => some l
  | _ :: _, [] => none
  | p :: ps, c :: cs => if c == p then matchLit ps cs else none

/-- Consume one character satisfying `p`. -/
def expectOne (p : Char → Bool) : List Char → Option (List Char)
  | [] => none
  | c :: t => if p c then some t else none

/-- Greedy `\s*`. -/
def dropSpaces (l : List Char) : List Char := l.dropWhile pySpace

/-- `VALOR_RE = Valor:\s*R\$\s*([0-9]+[.,][0-9]{2})` (IGNORECASE) matched at
the head; returns the captured group. -/
def matchValorAt (l : List Char) : Option (List Char) :=
  (matchLow "valor:".data l).bind fun r1 =>
  (matchLow "r$".data (dropSpaces r1)).bind fun r3 =>
  let r4 := dropSpaces r3
  let ds := r4.takeWhile isDig
  if ds.isEmpty then none
  else
    match r4.dropWhile isDig with
    | s :: d1 :: d2 :: _ =>
      if (s == '.' || s == ',') && isDig d1 && isDig d2 then
        some (ds ++ [s, d1, d2])
      else none
    | _ => none

/-- `USER_RE = User:\s*([0-9]+)` matched at the head; the captured digits. -/
def matchUserAt (l : List Char) : Option (List Char) :=
  (matchLit "User:".data l).bind fun r1 =>
  let r2 := dropSpaces r1
  let ds := r2.takeWhile isDig
  if ds.isEmpty then none else some ds

/-- `REF_RE = Indicado por:\s*([0-9]+)` (IGNORECASE) matched at the head. -/
def matchRefAt (l : List Char) : Option (List Char) :=
  (matchLow "indicado por:".data l).bind fun r1 =>
  let r2 := dropSpaces r1
  let ds := r2.takeWhile isDig
  if ds.isEmpty then none else some ds

/-- The optional `(?:\s+([0-9]{2}:[0-9]{2}:[0-9]{2}))?` tail of `DATA_RE`. -/
def matchTimeOpt (l : List Char) : Option (List Char) :=
  let sp := l.takeWhile pySpace
  if sp.isEmpty then none
  else
    match l.dropWhile pySpace with
    | h1 :: h2 :: ':' :: m1 :: m2 :: ':' :: s1 :: s2 :: _ =>
      if isDig h1 && isDig h2 && isDig m1 && isDig m2 && isDig s1 && isDig s2 then
        some [h1, h2, ':', m1, m2, ':', s1, s2]
      else none
    | _ => none

/-- `DATA_RE = Data:\s*([0-9]{2}/[0-9]{2}/[0-9]{4})(?:\s+([0-9]{2}:[0-9]{2}:[0-9]{2}))?`
matched at the head; returns (group 1, optional group 2). -/
def matchDataAt (l : List Char) : Option (List Char × Option (List Char)) :=
  (matchLit "Data:".data l).bind fun r1 =>
  match dropSpaces r1 with
  | a :: b :: '/' :: c :: d :: '/' :: e :: f :: g :: h :: rest =>
    if isDig a && isDig b && isDig c && isDig d &&
       isDig e && isDig f && isDig g && isDig h then
      some ([a, b, '/', c, d, '/', e, f, g, h], matchTimeOpt rest)
    else none
  | _ => none

/-- `re.search`: try the head matcher at each position, leftmost first. -/
def reSearch {α : Type} (f : List Char → Option α) : List Char → Option α
  | [] => f []
  | c :: t =>
    match f (c :: t) with
    | some a => some a
    | none => reSearch f t

def searchValor (l : List Char) : Option (List Char) := reSearch matchValorAt l
def searchUser (l : List Char) : Option (List Char) := reSearch matchUserAt l
def searchRef (l : List Char) : Option (List Char) := reSearch matchRefAt l
def searchData (l : List Char) : Option (List Char × Option (List Char)) :=
  reSearch matchDataAt l

/-! ### `BLOCK_SPLIT_RE` and `re.split` -/

/-- Python word character (`\b` test); ASCII letters/digits/underscore
(the texts at issue are within this range). -/
def isWordCh (c : Char) : Bool := c.isAlpha || isDig c || c == '_'

/-- Body of `BLOCK_SPLIT_RE` after the `(?:^|\n)` anchor:
`\s*[💰]\s*Novo\s+DEP[ÓO]SITO\b` with IGNORECASE; returns the rest after
the match. -/
def matchBlockBody (l : List Char) : Option (List Char) :=
  (expectOne (fun c => c == '💰') (dropSpaces l)).bind fun r1 =>
  (matchLow "novo".data (dropSpaces r1)).bind fun r2 =>
  let sp := r2.takeWhile pySpace
  if sp.isEmpty then none
  else
    (matchLow "dep".data (r2.dropWhile pySpace)).bind fun r3 =>
    (expectOne (fun c => c == 'Ó' || c == 'ó' || c == 'O' || c == 'o') r3).bind fun r4 =>
    (matchLow "sito".data r4).bind fun r5 =>
    match r5 with
    | [] => some []
    | c :: _ => if isWordCh c then none else some r5

/-- `BLOCK_SPLIT_RE` matched at a position; `atStart` records whether the
position is the start of the string (the `^` alternative; no `re.MULTILINE`). -/
def matchBlockAt (atStart : Bool) (l : List Char) : Option (List Char) :=
  match (if atStart then matchBlockBody l else none) with
  | some r => some r
  | none =>
    match l with
    | '\n' :: t => matchBlockBody t
    | _ => none

/-- Leftmost separator match: returns (text before the match, rest after it). -/
def blockFindAux : List Char → Bool → Option (List Char × List Char)
  | [], b =>
    match matchBlockAt b [] with
    | some r => some ([], r)
    | none => none
  | c :: t, b =>
    match matchBlockAt b (c :: t) with
    | some r => some ([], r)
    | none => (blockFindAux t false).map fun pr => (c :: pr.1, pr.2)

/-- `re.split` driver (fuelled; each separator match consumes at least the
emoji, so `length + 1` units of fuel always suffice). -/
def blockSplitAux : Nat → Bool → List Char → List (List Char)
  | 0, _, l => [l]
  | fuel + 1, b, l =>
    match blockFindAux l b with
    | none => [l]
    | some (p, r) => p :: blockSplitAux fuel false r

/-- `BLOCK_SPLIT_RE.split(text)`. -/
def blockSplit (l : List Char) : List (List Char) :=
  blockSplitAux (l.length + 1) true l

/-! ### `parse_date` and the deposit extractor -/

/-- Read a `DD/MM/YYYY` group as `strptime("%d/%m/%Y")` does: the layout is
fixed by `DATA_RE`, and `datetime` validates ranges (year 1..9999, month
1..12, day 1..days-in-month); an invalid date raises, modelled as `none`. -/
def parseDMY (l : List Char) : Option Date :=
  match l with
  | [a, b, '/', c, d, '/', e, f, g, h] =>
    if isDig a && isDig b && isDig c && isDig d &&
       isDig e && isDig f && isDig g && isDig h then
      let dd := ofDigits [a, b]
      let mm := ofDigits [c, d]
      let yy := ofDigits [e, f, g, h]
      if validDate ⟨yy, mm, dd⟩ then some ⟨yy, mm, dd⟩ else none
    else none
  | _ => none

/-- `parse_date` of `app.py`: on a valid date return its `YYYY-MM-DD` string,
otherwise fall back to the current date (`now`); second component is the
time-of-day string or `""`. -/
def parse_date (now : Date) (dmy : List Char) (hms : Option (List Char)) :
    List Char × List Char :=
  match parseDMY dmy with
  | some d => (d.toChars, hms.getD [])
  | none => (now.toChars, hms.getD [])

/-- One parsed deposit record, the dict built by `extract_deposits_from_text`. -/
structure Deposit where
  amount : ℚ
  date_ymd : List Char
  created_at : List Char
  user_code : List Char
  referrer_code : List Char
  raw : List Char
  source : List Char
deriving DecidableEq, Repr

/-- The record built from one chunk (and, identically, from the whole text in
the fallback): `none` exactly when `VALOR_RE` finds no amount. `to_decimal`
cannot fail on a `VALOR_RE` capture, so the inner `none` arm is unreachable
(in Python a failure there would raise; it never does). -/
def extractOne (now : Date) (source chunk : List Char) : Option Deposit :=
  match searchValor chunk with
  | none => none
  | some g =>
    match to_decimal g with
    | none => none
    | some amount =>
      let user_code := (searchUser chunk).getD []
      let dc : List Char × List Char :=
        match searchData chunk with
        | some (dmy, hms) =>
          ((parse_date now dmy hms).1, pyStrip (dmy ++ ' ' :: hms.getD []))
        | none => (now.toChars, [])
      let referrer_code := (searchRef chunk).getD []
      some ⟨amount, dc.1, dc.2, user_code, referrer_code, pyStrip chunk, source⟩

/-- The normalisation at the top of `extract_deposits_from_text`:
`text.replace(" ", " ").strip()`. -/
def pyNormalize (text : List Char) : List Char :=
  pyStrip (text.map (fun c => if c == Char.ofNat 0xA0 then ' ' else c))

/-- The per-chunk pass of `extract_deposits_from_text`: split on the block
marker and extract a record from every chunk in which the amount matches
(empty chunks are skipped by the code; they carry no amount anyway). -/
def chunk_pass (now : Date) (source text : List Char) : List Deposit :=
  (blockSplit (pyNormalize text)).filterMap (extractOne now source)

/-- `extract_deposits_from_text` of `app.py`: empty input gives `[]`; else the
per-chunk pass; if that produced nothing, one fallback attempt over the whole
(normalised) text. -/
def extract_deposits_from_text (now : Date) (source text : List Char) : List Deposit :=
  if text.isEmpty then []
  else if (chunk_pass now source text).isEmpty then
    (extractOne now source (pyNormalize text)).toList
  else chunk_pass now source text

/-! ### Ledger store, aggregation, pruning (the SQLite layer as lists) -/

/-- A row of the `payments` table (the surrogate `id` plays no role in any
claim and is omitted; SQLite assigns it). -/
structure PaymentRow where
  date : List Char
  amount : ℚ
  raw : List Char
  created_at : List Char
  source : List Char
  user_code : List Char
  referrer_code : List Char
  inserted_at : List Char
deriving DecidableEq, Repr

/-- A row of the `expenses` table. -/
structure ExpenseRow where
  date : List Char
  amount : ℚ
  description : List Char
  inserted_at : List Char
deriving DecidableEq, Repr

/-- `insert_payment_manual`: one INSERT; `raw` capped at 200000 characters,
missing optional strings stored as `""`. `nowIso` stands for `now_iso()`. -/
def insert_payment_manual (date : List Char) (amount : ℚ)
    (created_at user_code referrer_code raw_text source nowIso : List Char)
    (db : List PaymentRow) : List PaymentRow :=
  db ++ [⟨date, amount, raw_text.take 200000, created_at, source,
          user_code, referrer_code, nowIso⟩]

/-- `insert_expense`: one INSERT. -/
def insert_expense (date : List Char) (amount : ℚ) (description nowIso : List Char)
    (db : List ExpenseRow) : List ExpenseRow :=
  db ++ [⟨date, amount, description, nowIso⟩]

/-- SQLite BINARY (memcmp) comparison of TEXT values; on the ASCII date
strings at issue byte order is codepoint order. -/
def strLt : List Char → List Char → Bool
  | [], [] => false
  | [], _ :: _ => true
  | _ :: _, [] => false
  | a :: as, b :: bs =>
    decide (a.toNat < b.toNat) || (a.toNat == b.toNat && strLt as bs)

/-- `month_range` of `app.py`: `("{y:04d}-{m:02d}-01", first of next month)`,
December rolling over to January of the next year. -/
def month_range (year month : Nat) : List Char × List Char :=
  (dateChars year month 1,
   dateChars (year + (if month == 12 then 1 else 0))
             (if month == 12 then 1 else month + 1) 1)

/-- The SQL condition `date >= start AND date < end` of the monthly sums. -/
def inMonthB (year month : Nat) (s : List Char) : Bool :=
  !(strLt s (month_range year month).1) && strLt s (month_range year month).2

/-- `sum_payments_for_month`: `SELECT SUM(amount) ... WHERE date >= ? AND
date < ?`, with NULL (empty) coalesced to 0.0 by `or 0.0`. -/
def sum_payments_for_month (year month : Nat) (db : List PaymentRow) : ℚ :=
  ((db.filter (fun r => inMonthB year month r.date)).map (fun r => r.amount)).sum

/-- `sum_expenses_for_month`: same interval condition on the expenses table. -/
def sum_expenses_for_month (year month : Nat) (db : List ExpenseRow) : ℚ :=
  ((db.filter (fun r => inMonthB year month r.date)).map (fun r => r.amount)).sum

/-- The cutoff string `cleanup_old_months` computes: with `ym = y*12 + m -
keep_months`, cutoff year `(ym-1)//12` and month `(ym-1)%12 + 1` (Python floor
division and nonneg remainder = `Int.fdiv`/`Int.fmod` for the positive
divisor 12), rendered as `f"{cy:04d}-{cm:02d}-01"`. -/
def cleanup_cutoff (nowY nowM keep : Int) : List Char :=
  let ym := nowY * 12 + nowM - keep
  let cy := (ym - 1).fdiv 12
  let cm := (ym - 1).fmod 12 + 1
  dateChars cy.toNat cm.toNat 1

/-- `cleanup_old_months`: `DELETE ... WHERE date < cutoff` on both tables.
`nowY, nowM` are `utcnow()`'s year and month (the code zeroes the day, which
the cutoff arithmetic never reads). -/
def cleanup_old_months (nowY nowM keep : Int)
    (pays : List PaymentRow) (exps : List ExpenseRow) :
    List PaymentRow × List ExpenseRow :=
  let cutoff := cleanup_cutoff nowY nowM keep
  (pays.filter (fun r => !(strLt r.date cutoff)),
   exps.filter (fun r => !(strLt r.date cutoff)))

/-- `_process_text_and_reply`: parse the text and insert one payment row per
deposit (the replies are messaging I/O); returns the new table and the `bool`
the function returns. It performs no other state change — in particular it
never calls `cleanup_old_months`. -/
def process_text_and_reply (now : Date) (nowIso source : List Char)
    (db : List PaymentRow) (text : List Char) : List PaymentRow × Bool :=
  let deposits := extract_deposits_from_text now source text
  if deposits.isEmpty then (db, false)
  else
    (deposits.foldl (fun acc d =>
      insert_payment_manual d.date_ymd d.amount d.created_at d.user_code
        d.referrer_code d.raw source nowIso acc) db, true)

/-! ### The command layer (month/year argument handling, addexpense) -/

/-- Python `str.isdigit()` on the ASCII arguments at issue: nonempty and all
digits. -/
def pyIsdigit (l : List Char) : Bool := !l.isEmpty && l.all isDig

instance {ε α : Type} [DecidableEq ε] [DecidableEq α] : DecidableEq (Except ε α)
  | .ok a, .ok b =>
    match decEq a b with
    | isTrue h => isTrue (h ▸ rfl)
    | isFalse h => isFalse (fun he => h (by cases he; rfl))
  | .error a, .error b =>
    match decEq a b with
    | isTrue h => isTrue (h ▸ rfl)
    | isFalse h => isFalse (fun he => h (by cases he; rfl))
  | .ok _, .error _ => isFalse Except.noConfusion
  | .error _, .ok _ => isFalse Except.noConfusion

/-- `_parse_month_year` of `app.py`: when at least two leading all-digit
arguments are present take them as (month, year), otherwise silently default
to the current month and year; then validate `1 <= m <= 12` (a failure raises
`ValueError("Mês inválido 1-12")`, modelled as `Except.error`). -/
def parse_month_year (nowM nowY : Nat) (args : List (List Char)) :
    Except (List Char) (Nat × Nat) :=
  let my : Nat × Nat :=
    match args with
    | a :: b :: _ =>
      if pyIsdigit a && pyIsdigit b then (ofDigits a, ofDigits b) else (nowM, nowY)
    | _ => (nowM, nowY)
  if 1 ≤ my.1 && my.1 ≤ 12 then Except.ok my
  else Except.error "Mes invalido 1-12".data

/-- `_date_from_mm_yyyy`: `f"{y:04d}-{m:02d}-01"`. -/
def date_from_mm_yyyy (m y : Nat) : List Char := dateChars y m 1

/-- `_month_after`: December rolls over to January of the next year. -/
def month_after (m y : Nat) : Nat × Nat :=
  if m == 12 then (1, y + 1) else (m + 1, y)

/-- `_range_from_args` of `app.py`: `[start, end)` (and a label, which only
feeds file names) from 0, 2 or 4 leading all-digit arguments; no validation
of any month or year value is performed on any branch. -/
def range_from_args (nowM nowY : Nat) (args : List (List Char)) :
    List Char × List Char :=
  match args with
  | a :: b :: c :: d :: _ =>
    if pyIsdigit a && pyIsdigit b && pyIsdigit c && pyIsdigit d then
      let m2n := month_after (ofDigits c) (ofDigits d)
      (date_from_mm_yyyy (ofDigits a) (ofDigits b), date_from_mm_yyyy m2n.1 m2n.2)
    else if pyIsdigit a && pyIsdigit b then
      let mn := month_after (ofDigits a) (ofDigits b)
      (date_from_mm_yyyy (ofDigits a) (ofDigits b), date_from_mm_yyyy mn.1 mn.2)
    else
      let mn := month_after nowM nowY
      (date_from_mm_yyyy nowM nowY, date_from_mm_yyyy mn.1 mn.2)
  | a :: b :: _ =>
    if pyIsdigit a && pyIsdigit b then
      let mn := month_after (ofDigits a) (ofDigits b)
      (date_from_mm_yyyy (ofDigits a) (ofDigits b), date_from_mm_yyyy mn.1 mn.2)
    else
      let mn := month_after nowM nowY
      (date_from_mm_yyyy nowM nowY, date_from_mm_yyyy mn.1 mn.2)
  | _ =>
    let mn := month_after nowM nowY
    (date_from_mm_yyyy nowM nowY, date_from_mm_yyyy mn.1 mn.2)

/-- `" ".join(args[1:])`. -/
def joinArgs (args : List (List Char)) : List Char :=
  List.intercalate " ".data args

/-- `cmd_addexpense` of `app.py`, its ledger effect: with fewer than two
arguments only a usage reply is sent; otherwise `float(args[0].replace(",",
"."))` is taken as the amount — with NO sign or range check — and a row is
inserted dated today. A `float` parse failure raises and is caught by the
surrounding `except` (no insert). -/
def cmd_addexpense (today : Date) (nowIso : List Char) (args : List (List Char))
    (db : List ExpenseRow) : List ExpenseRow :=
  match args with
  | a :: rest =>
    if rest.isEmpty then db
    else
      match pyFloat (a.map (fun c => if c == ',' then '.' else c)) with
      | none => db
      | some amount => insert_expense today.toChars amount (joinArgs rest) nowIso db
  | [] => db

/-! ### Statement helpers -/

/-- A payment row carrying only the fields the aggregation claims read
(date rendered from an abstract calendar date, as the parser stores it). -/
def mkPayRow (d : Date) (a : ℚ) : PaymentRow := ⟨d.toChars, a, [], [], [], [], [], []⟩

/-- An expense row with its date rendered from an abstract calendar date. -/
def mkExpRow (d : Date) (a : ℚ) : ExpenseRow := ⟨d.toChars, a, [], []⟩

/-- `s` is a suffix of `l`. -/
def isTail (s l : List Char) : Prop := ∃ u, l = u ++ s

/-- `s` is a contiguous substring of `l`. -/
def isPart (s l : List Char) : Prop := ∃ u v, l = u ++ s ++ v

/-! ### Lemmas: digit strings, `pyStrip`, `ofDigits`, `to_decimal` -/

theorem isDig_toNat {c : Char} (h : isDig c = true) : 48 ≤ c.toNat ∧ c.toNat ≤ 57 := by
  simpa [isDig] using h

theorem toNat_of_eq {c d : Char} (h : c = d) : c.toNat = d.toNat := by rw [h]

/-- Digits, `.` and `,` are not Python whitespace. -/
theorem pySpace_false_of_toNat {c : Char} (hgt : 32 < c.toNat) (hne : c.toNat ≠ 160) :
    pySpace c = false := by
  unfold pySpace
  have h1 : (c == ' ') = false := by
    cases hc : c == ' '
    · rfl
    · exact absurd (eq_of_beq hc ▸ hgt) (by decide)
  have h2 : (c == '\t') = false := by
    cases hc : c == '\t'
    · rfl
    · exact absurd (eq_of_beq hc ▸ hgt) (by decide)
  have h3 : (c == '\n') = false := by
    cases hc : c == '\n'
    · rfl
    · exact absurd (eq_of_beq hc ▸ hgt) (by decide)
  have h4 : (c == '\r') = false := by
    cases hc : c == '\r'
    · rfl
    · exact absurd (eq_of_beq hc ▸ hgt) (by decide)
  have h5 : (c == Char.ofNat 11) = false := by
    cases hc : c == Char.ofNat 11
    · rfl
    · exact absurd (eq_of_beq hc ▸ hgt) (by decide)
  have h6 : (c == Char.ofNat 12) = false := by
    cases hc : c == Char.ofNat 12
    · rfl
    · exact absurd (eq_of_beq hc ▸ hgt) (by decide)
  have h7 : (c == Char.ofNat 160) = false := by
    cases hc : c == Char.ofNat 160
    · rfl
    · exact absurd (eq_of_beq hc ▸ hne) (by decide)
  rw [h1, h2, h3, h4, h5, h6, h7]
  rfl

theorem char_ne_of_toNat {c d : Char} (h : c.toNat ≠ d.toNat) : c ≠ d :=
  fun he => h (toNat_of_eq he)

theorem isDig_ne_comma {c : Char} (h : isDig c = true) : c ≠ ',' := by
  have := isDig_toNat h
  exact char_ne_of_toNat (by have : (',').toNat = 44 := rfl; omega)

theorem isDig_ne_dot {c : Char} (h : isDig c = true) : c ≠ '.' := by
  have := isDig_toNat h
  exact char_ne_of_toNat (by have : ('.').toNat = 46 := rfl; omega)

theorem isDig_pySpace {c : Char} (h : isDig c = true) : pySpace c = false := by
  have := isDig_toNat h
  exact pySpace_false_of_toNat (by omega) (by omega)

/-- `takeWhile` of an all-`p` block followed by a failing character. -/
theorem takeWhile_block {p : Char → Bool} :
    ∀ (a : List Char) (x : Char) (b : List Char), (∀ c ∈ a, p c = true) → p x = false →
    (a ++ x :: b).takeWhile p = a
  | [], x, b, _, hx => by simp [List.takeWhile_cons, hx]
  | c :: t, x, b, ha, hx => by
    have hc : p c = true := ha c (by simp)
    simp only [List.cons_append, List.takeWhile_cons, hc]
    simp [takeWhile_block t x b (fun d hd => ha d (by simp [hd])) hx]

/-- `takeWhile` of an all-`p` list is the list itself. -/
theorem takeWhile_all {p : Char → Bool} :
    ∀ (a : List Char), (∀ c ∈ a, p c = true) → a.takeWhile p = a
  | [], _ => rfl
  | c :: t, ha => by
    have hc : p c = true := ha c (by simp)
    simp only [List.takeWhile_cons, hc]
    simp [takeWhile_all t (fun d hd => ha d (by simp [hd]))]

/-- `dropWhile` of an all-`p` block followed by a failing character. -/
theorem dropWhile_block {p : Char → Bool} :
    ∀ (a : List Char) (x : Char) (b : List Char), (∀ c ∈ a, p c = true) → p x = false →
    (a ++ x :: b).dropWhile p = x :: b
  | [], x, b, _, hx => by simp [List.dropWhile_cons, hx]
  | c :: t, x, b, ha, hx => by
    have hc : p c = true := ha c (by simp)
    simp only [List.cons_append, List.dropWhile_cons, hc]
    simp [dropWhile_block t x b (fun d hd => ha d (by simp [hd])) hx]

/-- `dropWhile` of an all-`p` list is empty. -/
theorem dropWhile_all {p : Char → Bool} :
    ∀ (a : List Char), (∀ c ∈ a, p c = true) → a.dropWhile p = []
  | [], _ => rfl
  | c :: t, ha => by
    have hc : p c = true := ha c (by simp)
    simp only [List.dropWhile_cons, hc]
    simp [dropWhile_all t (fun d hd => ha d (by simp [hd]))]

/-- `dropWhile` does nothing when the head already fails `p`. -/
theorem dropWhile_head_false {p : Char → Bool} {l : List Char}
    (h : ∀ c, l.head? = some c → p c = false) : l.dropWhile p = l := by
  cases l with
  | nil => rfl
  | cons c t => simp [List.dropWhile_cons, h c rfl]

theorem mem_of_headOpt {c : Char} {l : List Char} (hc : l.head? = some c) : c ∈ l := by
  cases l with
  | nil => simp at hc
  | cons a t =>
    simp at hc
    simp [hc]

/-- `pyStrip` does nothing on a string with no whitespace at all. -/
theorem pyStrip_eq_self {l : List Char} (h : ∀ c ∈ l, pySpace c = false) :
    pyStrip l = l := by
  unfold pyStrip
  have h1 : l.dropWhile pySpace = l :=
    dropWhile_head_false (fun c hc => h c (mem_of_headOpt hc))
  rw [h1]
  have h2 : l.reverse.dropWhile pySpace = l.reverse :=
    dropWhile_head_false (fun c hc => h c (by
      have := mem_of_headOpt hc
      simpa using this))
  rw [h2, List.reverse_reverse]

theorem ofDigits_foldl (l : List Char) :
    ∀ init : Nat, l.foldl (fun a c => a * 10 + digVal c) init =
      init * 10 ^ l.length + ofDigits l := by
  induction l with
  | nil => intro init; simp [ofDigits]
  | cons c t ih =>
    intro init
    have h1 := ih (init * 10 + digVal c)
    have h2 := ih (digVal c)
    simp only [List.foldl_cons, List.length_cons]
    rw [h1]
    have h3 : ofDigits (c :: t) = digVal c * 10 ^ t.length + ofDigits t := by
      unfold ofDigits
      simpa using h2
    rw [h3]
    ring

theorem ofDigits_append (a b : List Char) :
    ofDigits (a ++ b) = ofDigits a * 10 ^ b.length + ofDigits b := by
  unfold ofDigits
  rw [List.foldl_append]
  exact ofDigits_foldl b (ofDigits a)

/-- `pyFloatMag` on `a ++ '.' :: b` with `a`, `b` digit strings, `b` nonempty. -/
theorem pyFloatMag_digits_dot (a b : List Char)
    (ha : ∀ c ∈ a, isDig c = true) (hb : ∀ c ∈ b, isDig c = true) (hbne : b ≠ []) :
    pyFloatMag (a ++ '.' :: b) = some (mkRat (ofDigits (a ++ b)) (10 ^ b.length)) := by
  have hdot : isDig '.' = false := by decide
  have h1 : (a ++ '.' :: b).takeWhile isDig = a := takeWhile_block a '.' b ha hdot
  have h2 : (a ++ '.' :: b).dropWhile isDig = '.' :: b := dropWhile_block a '.' b ha hdot
  have h3 : b.takeWhile isDig = b := takeWhile_all b hb
  have h4 : b.dropWhile isDig = [] := dropWhile_all b hb
  have h5 : b.isEmpty = false := by
    cases b with
    | nil => exact absurd rfl hbne
    | cons x t => rfl
  simp only [pyFloatMag, h1, h2, h3, h4, h5]
  simp

/-- `pyFloatMag` on an all-digit nonempty string. -/
theorem pyFloatMag_digits (a : List Char)
    (ha : ∀ c ∈ a, isDig c = true) (hane : a ≠ []) :
    pyFloatMag a = some (mkRat (ofDigits a) 1) := by
  have h1 : a.takeWhile isDig = a := takeWhile_all a ha
  have h4 : a.dropWhile isDig = [] := dropWhile_all a ha
  have h5 : a.isEmpty = false := by
    cases a with
    | nil => exact absurd rfl hane
    | cons x t => rfl
  simp only [pyFloatMag, h1, h4, h5]
  simp

/-- `pyFloat` does not strip a sign when the head is a digit or a dot. -/
theorem pyFloat_no_sign {l : List Char}
    (h : ∀ c, l.head? = some c → (isDig c = true ∨ c = '.')) :
    pyFloat l = pyFloatMag l := by
  cases l with
  | nil => rfl
  | cons c t =>
    have hc := h c rfl
    have hminus : c ≠ '-' := by
      rcases hc with hd | hd
      · have := isDig_toNat hd
        exact char_ne_of_toNat (by have : ('-').toNat = 45 := rfl; omega)
      · rw [hd]; decide
    have hplus : c ≠ '+' := by
      rcases hc with hd | hd
      · have := isDig_toNat hd
        exact char_ne_of_toNat (by have : ('+').toNat = 43 := rfl; omega)
      · rw [hd]; decide
    unfold pyFloat
    split
    · next t' he =>
      rw [List.cons.injEq] at he
      exact absurd he.1 hminus
    · next t' he =>
      rw [List.cons.injEq] at he
      exact absurd he.1 hplus
    · rfl

theorem contains_true_of_mem {l : List Char} {c : Char} (h : c ∈ l) :
    l.contains c = true :=
  List.elem_eq_true_of_mem h

theorem contains_false_of {l : List Char} {c : Char} (h : ∀ d ∈ l, d ≠ c) :
    l.contains c = false := by
  cases hb : l.contains c
  · rfl
  · exact absurd rfl (h c (List.mem_of_elem_eq_true hb))

theorem map_eq_self_of {f : Char → Char} {l : List Char} (h : ∀ c ∈ l, f c = c) :
    l.map f = l := by
  induction l with
  | nil => rfl
  | cons a t ih => simp [h a (by simp), ih (fun c hc => h c (by simp [hc]))]

theorem filter_eq_self_of {p : Char → Bool} {l : List Char} (h : ∀ c ∈ l, p c = true) :
    l.filter p = l := by
  induction l with
  | nil => rfl
  | cons a t ih => simp [List.filter_cons, h a (by simp), ih (fun c hc => h c (by simp [hc]))]

theorem beqComma_false_of_dig {c : Char} (h : isDig c = true) : (c == ',') = false := by
  cases hb : c == ','
  · rfl
  · exact absurd (eq_of_beq hb) (isDig_ne_comma h)

theorem bneDot_true_of_dig {c : Char} (h : isDig c = true) : (c != '.') = true := by
  cases hb : c == '.'
  · simp [bne, hb]
  · exact absurd (eq_of_beq hb) (isDig_ne_dot h)

/-- Rationals made from natural numerator and denominator are nonnegative. -/
theorem mkRat_nonneg_nat (n d : Nat) : 0 ≤ mkRat (n : Int) d := by
  rw [Rat.mkRat_eq_div]
  apply div_nonneg
  · exact_mod_cast Int.ofNat_nonneg n
  · exact_mod_cast Nat.zero_le d

/-- The characters of an amount numeral (digits, separators) are not spaces. -/
theorem amount_chars_not_space {c : Char}
    (h : isDig c = true ∨ c = '.' ∨ c = ',') : pySpace c = false := by
  rcases h with hd | hd | hd
  · exact isDig_pySpace hd
  · rw [hd]; decide
  · rw [hd]; decide

/-- `to_decimal` on `digits , digits` (only a comma): the comma is read as
the decimal point. -/
theorem to_decimal_comma (a b : List Char)
    (ha : ∀ c ∈ a, isDig c = true) (hb : ∀ c ∈ b, isDig c = true) (hbne : b ≠ []) :
    to_decimal (a ++ ',' :: b) = some (mkRat (ofDigits (a ++ b)) (10 ^ b.length)) := by
  have hstrip : pyStrip (a ++ ',' :: b) = a ++ ',' :: b := by
    apply pyStrip_eq_self
    intro c hc
    rcases List.mem_append.1 hc with h1 | h1
    · exact amount_chars_not_space (Or.inl (ha c h1))
    · rcases List.mem_cons.1 h1 with h2 | h2
      · exact amount_chars_not_space (Or.inr (Or.inr h2))
      · exact amount_chars_not_space (Or.inl (hb c h2))
  have hnodot : (a ++ ',' :: b).contains '.' = false := by
    apply contains_false_of
    intro d hd
    rcases List.mem_append.1 hd with h1 | h1
    · exact isDig_ne_dot (ha d h1)
    · rcases List.mem_cons.1 h1 with h2 | h2
      · rw [h2]; decide
      · exact isDig_ne_dot (hb d h2)
  simp only [to_decimal, hstrip, hnodot, Bool.and_false, Bool.false_eq_true, if_false]
  have hmap : (a ++ ',' :: b).map (fun c => if c == ',' then '.' else c) =
      a ++ '.' :: b := by
    rw [List.map_append, List.map_cons]
    rw [map_eq_self_of (fun c hc => by simp [beqComma_false_of_dig (ha c hc)])]
    rw [map_eq_self_of (fun c hc => by simp [beqComma_false_of_dig (hb c hc)])]
    norm_num
  rw [hmap]
  rw [pyFloat_no_sign (fun c hc => by
    cases a with
    | nil => simp at hc; exact Or.inr hc.symm
    | cons x t => simp at hc; exact Or.inl (hc ▸ ha x (by simp)))]
  exact pyFloatMag_digits_dot a b ha hb hbne

/-- `to_decimal` on `digits . digits` (only a dot): the dot is the decimal
point (the comma substitution does nothing). -/
theorem to_decimal_dot (a b : List Char)
    (ha : ∀ c ∈ a, isDig c = true) (hb : ∀ c ∈ b, isDig c = true) (hbne : b ≠ []) :
    to_decimal (a ++ '.' :: b) = some (mkRat (ofDigits (a ++ b)) (10 ^ b.length)) := by
  have hstrip : pyStrip (a ++ '.' :: b) = a ++ '.' :: b := by
    apply pyStrip_eq_self
    intro c hc
    rcases List.mem_append.1 hc with h1 | h1
    · exact amount_chars_not_space (Or.inl (ha c h1))
    · rcases List.mem_cons.1 h1 with h2 | h2
      · exact amount_chars_not_space (Or.inr (Or.inl h2))
      · exact amount_chars_not_space (Or.inl (hb c h2))
  have hnocomma : (a ++ '.' :: b).contains ',' = false := by
    apply contains_false_of
    intro d hd
    rcases List.mem_append.1 hd with h1 | h1
    · exact isDig_ne_comma (ha d h1)
    · rcases List.mem_cons.1 h1 with h2 | h2
      · rw [h2]; decide
      · exact isDig_ne_comma (hb d h2)
  simp only [to_decimal, hstrip, hnocomma, Bool.false_and, Bool.false_eq_true, if_false]
  have hmap : (a ++ '.' :: b).map (fun c => if c == ',' then '.' else c) =
      a ++ '.' :: b := by
    apply map_eq_self_of
    intro c hc
    rcases List.mem_append.1 hc with h1 | h1
    · simp [beqComma_false_of_dig (ha c h1)]
    · rcases List.mem_cons.1 h1 with h2 | h2
      · rw [h2]; rfl
      · simp [beqComma_false_of_dig (hb c h2)]
  rw [hmap]
  rw [pyFloat_no_sign (fun c hc => by
    cases a with
    | nil => simp at hc; exact Or.inr hc.symm
    | cons x t => simp at hc; exact Or.inl (hc ▸ ha x (by simp)))]
  exact pyFloatMag_digits_dot a b ha hb hbne

/-- `to_decimal` with both separators present (`a` digits-and-dots containing
a dot, then a comma, then digits): every dot is deleted and the comma becomes
the decimal point. -/
theorem to_decimal_both (a c : List Char) (hdot : '.' ∈ a)
    (ha : ∀ ch ∈ a, isDig ch = true ∨ ch = '.')
    (hc : ∀ ch ∈ c, isDig ch = true) (hcne : c ≠ []) :
    to_decimal (a ++ ',' :: c) =
      some (mkRat (ofDigits (a.filter (fun ch => ch != '.') ++ c)) (10 ^ c.length)) := by
  have hstrip : pyStrip (a ++ ',' :: c) = a ++ ',' :: c := by
    apply pyStrip_eq_self
    intro d hd
    rcases List.mem_append.1 hd with h1 | h1
    · rcases ha d h1 with h2 | h2
      · exact amount_chars_not_space (Or.inl h2)
      · exact amount_chars_not_space (Or.inr (Or.inl h2))
    · rcases List.mem_cons.1 h1 with h2 | h2
      · exact amount_chars_not_space (Or.inr (Or.inr h2))
      · exact amount_chars_not_space (Or.inl (hc d h2))
  have hcomma : (a ++ ',' :: c).contains ',' = true :=
    contains_true_of_mem (List.mem_append.2 (Or.inr (by simp)))
  have hdots : (a ++ ',' :: c).contains '.' = true :=
    contains_true_of_mem (List.mem_append.2 (Or.inl hdot))
  simp only [to_decimal, hstrip, hcomma, hdots, Bool.and_true, if_true]
  have hfil : (a ++ ',' :: c).filter (fun ch => ch != '.') =
      a.filter (fun ch => ch != '.') ++ ',' :: c := by
    rw [List.filter_append, List.filter_cons]
    have h1 : ((',' : Char) != '.') = true := by decide
    rw [h1]
    simp only [if_true]
    rw [filter_eq_self_of (fun d hd => bneDot_true_of_dig (hc d hd))]
  rw [hfil]
  have haf : ∀ ch ∈ a.filter (fun ch => ch != '.'), isDig ch = true := by
    intro ch hch
    rcases List.mem_filter.1 hch with ⟨hmem, hne⟩
    rcases ha ch hmem with h2 | h2
    · exact h2
    · rw [h2] at hne; simp at hne
  have hmap : (a.filter (fun ch => ch != '.') ++ ',' :: c).map
      (fun ch => if ch == ',' then '.' else ch) =
      a.filter (fun ch => ch != '.') ++ '.' :: c := by
    rw [List.map_append, List.map_cons]
    rw [map_eq_self_of (fun d hd => by simp [beqComma_false_of_dig (haf d hd)])]
    rw [map_eq_self_of (fun d hd => by simp [beqComma_false_of_dig (hc d hd)])]
    norm_num
  rw [hmap]
  rw [pyFloat_no_sign (fun d hd => by
    cases hfa : a.filter (fun ch => ch != '.') with
    | nil => rw [hfa] at hd; simp at hd; exact Or.inr hd.symm
    | cons x t =>
      rw [hfa] at hd
      simp at hd
      refine Or.inl (hd ▸ haf x ?_)
      rw [hfa]
      simp)]
  exact pyFloatMag_digits_dot _ c haf hc hcne

/-! ### Lemmas: decimal rendering and the order of date strings -/

theorem natReprAux_stable : ∀ n f g : Nat, n < f → n < g →
    natReprAux f n = natReprAux g n := by
  intro n
  induction n using Nat.strong_induction_on with
  | _ n ih =>
    intro f g hf hg
    match f, g with
    | f' + 1, g' + 1 =>
      by_cases h10 : n < 10
      · simp [natReprAux, h10]
      · have hd : n / 10 < n := Nat.div_lt_self (by omega) (by omega)
        simp only [natReprAux, if_neg h10]
        rw [ih (n / 10) hd (f') (n / 10 + 1) (by omega) (by omega)]
        rw [ih (n / 10) hd (g') (n / 10 + 1) (by omega) (by omega)]

theorem natRepr_small {n : Nat} (h : n < 10) : natRepr n = [digCh n] := by
  simp [natRepr, natReprAux, h]

theorem natRepr_step {n : Nat} (h : 10 ≤ n) :
    natRepr n = natRepr (n / 10) ++ [digCh (n % 10)] := by
  unfold natRepr
  have hd : n / 10 < n := Nat.div_lt_self (by omega) (by omega)
  show natReprAux (n + 1) n = _
  rw [show natReprAux (n + 1) n = natReprAux n (n / 10) ++ [digCh (n % 10)] by
    simp [natReprAux, Nat.not_lt.2 h]]
  rw [natReprAux_stable (n / 10) n (n / 10 + 1) hd (by omega)]

theorem digCh_toNat {x : Nat} (h : x ≤ 9) : (digCh x).toNat = 48 + x := by
  interval_cases x <;> rfl

theorem padTo2_eq {n : Nat} (h : n ≤ 99) :
    padTo 2 (natRepr n) = [digCh (n / 10), digCh (n % 10)] := by
  by_cases h10 : n < 10
  · rw [natRepr_small h10]
    have h1 : n / 10 = 0 := by omega
    have h2 : n % 10 = n := by omega
    rw [h1, h2]
    rfl
  · rw [natRepr_step (by omega)]
    rw [natRepr_small (by omega)]
    have : n / 10 ≤ 9 := by omega
    simp [padTo]

theorem padTo4_eq {n : Nat} (h : n ≤ 9999) :
    padTo 4 (natRepr n) =
      [digCh (n / 1000), digCh (n / 100 % 10), digCh (n / 10 % 10), digCh (n % 10)] := by
  by_cases h1 : n < 10
  · rw [natRepr_small h1]
    have e1 : n / 1000 = 0 := by omega
    have e2 : n / 100 % 10 = 0 := by omega
    have e3 : n / 10 % 10 = 0 := by omega
    have e4 : n % 10 = n := by omega
    rw [e1, e2, e3, e4]
    rfl
  · by_cases h2 : n < 100
    · rw [natRepr_step (by omega), natRepr_small (by omega)]
      have e1 : n / 1000 = 0 := by omega
      have e2 : n / 100 % 10 = 0 := by omega
      have e3 : n / 10 % 10 = n / 10 := by omega
      rw [e1, e2, e3]
      rfl
    · by_cases h3 : n < 1000
      · rw [natRepr_step (by omega), natRepr_step (by omega), natRepr_small (by omega)]
        have e1 : n / 1000 = 0 := by omega
        have e2 : n / 10 / 10 = n / 100 := by omega
        have e3 : n / 100 % 10 = n / 100 := by omega
        rw [e2, e1, e3]
        rfl
      · rw [natRepr_step (by omega), natRepr_step (by omega),
            natRepr_step (by omega), natRepr_small (by omega)]
        have e2 : n / 10 / 10 = n / 100 := by omega
        have e4 : n / 10 / 10 / 10 = n / 1000 := by omega
        have e5 : n / 100 / 10 = n / 1000 := by omega
        rw [e2, e5]
        rfl

theorem strLt_cons_iff (a b : Char) (as bs : List Char) :
    strLt (a :: as) (b :: bs) = true ↔
      (a.toNat < b.toNat ∨ (a.toNat = b.toNat ∧ strLt as bs = true)) := by
  simp [strLt]

theorem strLt_cons_digCh {x y : Nat} (hx : x ≤ 9) (hy : y ≤ 9) (as bs : List Char) :
    strLt (digCh x :: as) (digCh y :: bs) = true ↔
      (x < y ∨ (x = y ∧ strLt as bs = true)) := by
  rw [strLt_cons_iff, digCh_toNat hx, digCh_toNat hy]
  constructor <;> rintro (h | ⟨h, hs⟩)
  · exact Or.inl (by omega)
  · exact Or.inr ⟨by omega, hs⟩
  · exact Or.inl (by omega)
  · exact Or.inr ⟨by omega, hs⟩

theorem strLt_cons_same (c : Char) (as bs : List Char) :
    strLt (c :: as) (c :: bs) = true ↔ strLt as bs = true := by
  simp [strLt]

theorem strLt_nil_iff : strLt [] [] = true ↔ False := by
  simp [strLt]

/-- Lexicographic comparison of the four decimal digits of numbers below
10000 decides their order (with an arbitrary tie-break `P`). -/
theorem lex4_iff (a b : Nat) (ha : a ≤ 9999) (hb : b ≤ 9999) (P : Prop) :
    (a / 1000 < b / 1000 ∨ (a / 1000 = b / 1000 ∧
      (a / 100 % 10 < b / 100 % 10 ∨ (a / 100 % 10 = b / 100 % 10 ∧
        (a / 10 % 10 < b / 10 % 10 ∨ (a / 10 % 10 = b / 10 % 10 ∧
          (a % 10 < b % 10 ∨ (a % 10 = b % 10 ∧ P)))))))) ↔
    (a < b ∨ (a = b ∧ P)) := by
  constructor
  · rintro (h | ⟨h1, h | ⟨h2, h | ⟨h3, h | ⟨h4, hP⟩⟩⟩⟩)
    · exact Or.inl (by omega)
    · exact Or.inl (by omega)
    · exact Or.inl (by omega)
    · exact Or.inl (by omega)
    · exact Or.inr ⟨by omega, hP⟩
  · rintro (h | ⟨h, hP⟩)
    · by_cases c1 : a / 1000 < b / 1000
      · exact Or.inl c1
      · right
        refine ⟨by omega, ?_⟩
        by_cases c2 : a / 100 % 10 < b / 100 % 10
        · exact Or.inl c2
        · right
          refine ⟨by omega, ?_⟩
          by_cases c3 : a / 10 % 10 < b / 10 % 10
          · exact Or.inl c3
          · right
            refine ⟨by omega, ?_⟩
            left
            omega
    · subst h
      exact Or.inr ⟨rfl, Or.inr ⟨rfl, Or.inr ⟨rfl, Or.inr ⟨rfl, hP⟩⟩⟩⟩

/-- The two-digit version of `lex4_iff`. -/
theorem lex2_iff (a b : Nat) (_ha : a ≤ 99) (hb : b ≤ 99) (P : Prop) :
    (a / 10 < b / 10 ∨ (a / 10 = b / 10 ∧
      (a % 10 < b % 10 ∨ (a % 10 = b % 10 ∧ P)))) ↔
    (a < b ∨ (a = b ∧ P)) := by
  constructor
  · rintro (h | ⟨h1, h | ⟨h2, hP⟩⟩)
    · exact Or.inl (by omega)
    · exact Or.inl (by omega)
    · exact Or.inr ⟨by omega, hP⟩
  · rintro (h | ⟨h, hP⟩)
    · by_cases c1 : a / 10 < b / 10
      · exact Or.inl c1
      · right
        refine ⟨by omega, ?_⟩
        left
        omega
    · subst h
      exact Or.inr ⟨rfl, Or.inr ⟨rfl, hP⟩⟩

/-- For four-digit years and two-digit months and days, the SQLite string
order on `YYYY-MM-DD` strings is the lexicographic calendar order. -/
theorem strLt_dateChars_iff (y1 m1 d1 y2 m2 d2 : Nat)
    (hy1 : y1 ≤ 9999) (hm1 : m1 ≤ 99) (hd1 : d1 ≤ 99)
    (hy2 : y2 ≤ 9999) (hm2 : m2 ≤ 99) (hd2 : d2 ≤ 99) :
    strLt (dateChars y1 m1 d1) (dateChars y2 m2 d2) = true ↔
      (y1 < y2 ∨ (y1 = y2 ∧ (m1 < m2 ∨ (m1 = m2 ∧ d1 < d2)))) := by
  rw [dateChars, dateChars, padTo4_eq hy1, padTo4_eq hy2,
      padTo2_eq hm1, padTo2_eq hm2, padTo2_eq hd1, padTo2_eq hd2]
  simp only [List.cons_append, List.nil_append]
  rw [strLt_cons_digCh (show y1 / 1000 ≤ 9 by omega) (show y2 / 1000 ≤ 9 by omega)]
  rw [strLt_cons_digCh (show y1 / 100 % 10 ≤ 9 by omega) (show y2 / 100 % 10 ≤ 9 by omega)]
  rw [strLt_cons_digCh (show y1 / 10 % 10 ≤ 9 by omega) (show y2 / 10 % 10 ≤ 9 by omega)]
  rw [strLt_cons_digCh (show y1 % 10 ≤ 9 by omega) (show y2 % 10 ≤ 9 by omega)]
  rw [strLt_cons_same]
  rw [strLt_cons_digCh (show m1 / 10 ≤ 9 by omega) (show m2 / 10 ≤ 9 by omega)]
  rw [strLt_cons_digCh (show m1 % 10 ≤ 9 by omega) (show m2 % 10 ≤ 9 by omega)]
  rw [strLt_cons_same]
  rw [strLt_cons_digCh (show d1 / 10 ≤ 9 by omega) (show d2 / 10 ≤ 9 by omega)]
  rw [strLt_cons_digCh (show d1 % 10 ≤ 9 by omega) (show d2 % 10 ≤ 9 by omega)]
  rw [strLt_nil_iff]
  rw [lex4_iff y1 y2 hy1 hy2]
  rw [lex2_iff m1 m2 hm1 hm2]
  rw [lex2_iff d1 d2 hd1 hd2]
  simp

/-- The SQL interval condition of the monthly sums holds for a stored valid
date exactly when that date's year and month are the queried ones (provided
the end marker of the month is still a four-digit year). -/
theorem inMonthB_iff (y m ry rm rd : Nat)
    (hm1 : 1 ≤ m) (hm2 : m ≤ 12) (hy1 : 1 ≤ y) (hy2 : y ≤ 9999)
    (hno : ¬(y = 9999 ∧ m = 12))
    (hry1 : 1 ≤ ry) (hry2 : ry ≤ 9999)
    (hrm1 : 1 ≤ rm) (hrm2 : rm ≤ 12) (hrd1 : 1 ≤ rd) (hrd2 : rd ≤ 99) :
    inMonthB y m (dateChars ry rm rd) = true ↔ (ry = y ∧ rm = m) := by
  unfold inMonthB month_range
  by_cases h12 : m = 12
  · subst h12
    have hy : y ≤ 9998 := by omega
    simp only [beq_self_eq_true, if_true, Bool.and_eq_true, Bool.not_eq_true']
    have e1 := strLt_dateChars_iff ry rm rd y 12 1 (by omega) (by omega) (by omega)
      (by omega) (by omega) (by omega)
    have e2 := strLt_dateChars_iff ry rm rd (y + 1) 1 1 (by omega) (by omega) (by omega)
      (by omega) (by omega) (by omega)
    rw [Bool.eq_false_iff, Ne, e1, e2]
    omega
  · have hm12 : (m == 12) = false := by
      cases hb : m == 12
      · rfl
      · exact absurd (beq_iff_eq.mp hb) h12
    simp only [hm12, Bool.false_eq_true, if_false, Nat.add_zero, Bool.and_eq_true, Bool.not_eq_true']
    have e1 := strLt_dateChars_iff ry rm rd y m 1 (by omega) (by omega) (by omega)
      (by omega) (by omega) (by omega)
    have e2 := strLt_dateChars_iff ry rm rd y (m + 1) 1 (by omega) (by omega) (by omega)
      (by omega) (by omega) (by omega)
    rw [Bool.eq_false_iff, Ne, e1, e2]
    omega

/-- The bounds `inMonthB_iff` needs, extracted from `validDate`. -/
theorem validDate_bounds {d : Date} (h : validDate d = true) :
    1 ≤ d.year ∧ d.year ≤ 9999 ∧ 1 ≤ d.month ∧ d.month ≤ 12 ∧
    1 ≤ d.day ∧ d.day ≤ 99 := by
  unfold validDate at h
  simp only [Bool.and_eq_true, decide_eq_true_eq] at h
  have hd : daysInMonth d.year d.month ≤ 31 := by
    unfold daysInMonth
    split
    · split <;> omega
    · split <;> omega
  omega

/-- The monthly payments sum over rows with valid stored dates equals the sum
over exactly the rows of that calendar month. -/
theorem sum_payments_calendar (y m : Nat)
    (hm1 : 1 ≤ m) (hm2 : m ≤ 12) (hy1 : 1 ≤ y) (hy2 : y ≤ 9999)
    (hno : ¬(y = 9999 ∧ m = 12)) (rows : List (Date × ℚ))
    (hval : ∀ p ∈ rows, validDate p.1 = true) :
    sum_payments_for_month y m (rows.map (fun p => mkPayRow p.1 p.2)) =
      ((rows.filter (fun p => p.1.year == y && p.1.month == m)).map
        (fun p => p.2)).sum := by
  induction rows with
  | nil => rfl
  | cons p t ih =>
    have hv := validDate_bounds (hval p (by simp))
    have hiff := inMonthB_iff y m p.1.year p.1.month p.1.day hm1 hm2 hy1 hy2 hno
      (by omega) (by omega) (by omega) (by omega) (by omega) (by omega)
    have iht := ih (fun q hq => hval q (by simp [hq]))
    unfold sum_payments_for_month at *
    simp only [List.map_cons, List.filter_cons]
    by_cases hc : p.1.year = y ∧ p.1.month = m
    · have hb1 : inMonthB y m (mkPayRow p.1 p.2).date = true := by
        unfold mkPayRow Date.toChars
        simp only
        exact hiff.2 hc
      have hb2 : (p.1.year == y && p.1.month == m) = true := by
        simp [hc.1, hc.2]
      rw [hb1, hb2]
      simp only [if_true, List.map_cons, List.sum_cons]
      rw [iht]
      rfl
    · have hb1 : inMonthB y m (mkPayRow p.1 p.2).date = false := by
        unfold mkPayRow Date.toChars
        simp only
        cases hb : inMonthB y m (dateChars p.1.year p.1.month p.1.day)
        · rfl
        · exact absurd (hiff.1 hb) hc
      have hb2 : (p.1.year == y && p.1.month == m) = false := by
        cases hb : (p.1.year == y && p.1.month == m)
        · rfl
        · simp only [Bool.and_eq_true, beq_iff_eq] at hb
          exact absurd hb hc
      rw [hb1, hb2]
      simp only [Bool.false_eq_true, if_false]
      exact iht

/-- The same for the expenses table. -/
theorem sum_expenses_calendar (y m : Nat)
    (hm1 : 1 ≤ m) (hm2 : m ≤ 12) (hy1 : 1 ≤ y) (hy2 : y ≤ 9999)
    (hno : ¬(y = 9999 ∧ m = 12)) (rows : List (Date × ℚ))
    (hval : ∀ p ∈ rows, validDate p.1 = true) :
    sum_expenses_for_month y m (rows.map (fun p => mkExpRow p.1 p.2)) =
      ((rows.filter (fun p => p.1.year == y && p.1.month == m)).map
        (fun p => p.2)).sum := by
  induction rows with
  | nil => rfl
  | cons p t ih =>
    have hv := validDate_bounds (hval p (by simp))
    have hiff := inMonthB_iff y m p.1.year p.1.month p.1.day hm1 hm2 hy1 hy2 hno
      (by omega) (by omega) (by omega) (by omega) (by omega) (by omega)
    have iht := ih (fun q hq => hval q (by simp [hq]))
    unfold sum_expenses_for_month at *
    simp only [List.map_cons, List.filter_cons]
    by_cases hc : p.1.year = y ∧ p.1.month = m
    · have hb1 : inMonthB y m (mkExpRow p.1 p.2).date = true := by
        unfold mkExpRow Date.toChars
        simp only
        exact hiff.2 hc
      have hb2 : (p.1.year == y && p.1.month == m) = true := by
        simp [hc.1, hc.2]
      rw [hb1, hb2]
      simp only [if_true, List.map_cons, List.sum_cons]
      rw [iht]
      rfl
    · have hb1 : inMonthB y m (mkExpRow p.1 p.2).date = false := by
        unfold mkExpRow Date.toChars
        simp only
        cases hb : inMonthB y m (dateChars p.1.year p.1.month p.1.day)
        · rfl
        · exact absurd (hiff.1 hb) hc
      have hb2 : (p.1.year == y && p.1.month == m) = false := by
        cases hb : (p.1.year == y && p.1.month == m)
        · rfl
        · simp only [Bool.and_eq_true, beq_iff_eq] at hb
          exact absurd hb hc
      rw [hb1, hb2]
      simp only [Bool.false_eq_true, if_false]
      exact iht

theorem filter_map_comm {α β : Type} (f : α → β) (p : β → Bool) (q : α → Bool)
    (l : List α) (h : ∀ x ∈ l, p (f x) = q x) :
    (l.map f).filter p = (l.filter q).map f := by
  induction l with
  | nil => rfl
  | cons x t ih =>
    simp only [List.map_cons, List.filter_cons, h x (by simp)]
    by_cases hq : q x = true
    · rw [hq]
      simp only [if_true, List.map_cons]
      rw [ih (fun z hz => h z (by simp [hz]))]
    · have hq' : q x = false := by
        cases hb : q x
        · rfl
        · exact absurd hb hq
      rw [hq']
      simp only [Bool.false_eq_true, if_false]
      exact ih (fun z hz => h z (by simp [hz]))

/-- The cutoff `cleanup_old_months` computes is the first of the month whose
month index (`year*12 + month`) is exactly `keep` months before the current
one. -/
theorem cleanup_cutoff_spec (nowY nowM keep : Int)
    (hk : 0 ≤ keep) (hlo : keep + 13 ≤ nowY * 12 + nowM)
    (hhi : nowY ≤ 9999) (hm2 : nowM ≤ 12) :
    ∃ cy cm : Nat,
      cleanup_cutoff nowY nowM keep = dateChars cy cm 1 ∧
      1 ≤ cm ∧ cm ≤ 12 ∧ 1 ≤ cy ∧ cy ≤ 9999 ∧
      (cy : Int) * 12 + (cm : Int) = nowY * 12 + nowM - keep := by
  have hym : 13 ≤ nowY * 12 + nowM - keep := by omega
  obtain ⟨k, hk2⟩ : ∃ k : Nat, nowY * 12 + nowM - keep - 1 = (k : Int) :=
    ⟨(nowY * 12 + nowM - keep - 1).toNat, by omega⟩
  have hd : (nowY * 12 + nowM - keep - 1).fdiv 12 = ((k / 12 : Nat) : Int) := by
    rw [hk2, Int.fdiv_eq_ediv _ (by omega)]
    push_cast
    rfl
  have hm : (nowY * 12 + nowM - keep - 1).fmod 12 = ((k % 12 : Nat) : Int) := by
    rw [hk2]
    have hd2 : ((k : Int)).fdiv 12 = ((k / 12 : Nat) : Int) := by
      rw [Int.fdiv_eq_ediv _ (by omega)]
      push_cast
      rfl
    have hf := Int.fmod_add_fdiv ((k : Int)) 12
    rw [hd2] at hf
    omega
  refine ⟨k / 12, k % 12 + 1, ?_, by omega, by omega, ?_, ?_, ?_⟩
  · simp only [cleanup_cutoff, hd, hm]
    have e1 : (((k / 12 : Nat) : Int)).toNat = k / 12 := by omega
    have e2 : ((((k % 12 : Nat) : Int)) + 1).toNat = k % 12 + 1 := by omega
    rw [e1, e2]
  · have : 12 ≤ k := by omega
    omega
  · have : k ≤ 119999 := by omega
    omega
  · push_cast
    omega

/-! ### Lemmas: the matchers under suffixes and right extension -/

theorem isTail_refl (l : List Char) : isTail l l := ⟨[], rfl⟩

theorem isTail_of_cons {s : List Char} {c : Char} {t : List Char}
    (h : isTail s t) : isTail s (c :: t) := by
  obtain ⟨u, hu⟩ := h
  exact ⟨c :: u, by simp [hu]⟩

theorem isTail_trans {a b c : List Char} (h1 : isTail a b) (h2 : isTail b c) :
    isTail a c := by
  obtain ⟨u, hu⟩ := h1
  obtain ⟨v, hv⟩ := h2
  exact ⟨v ++ u, by simp [hv, hu]⟩

theorem isTail_cases {s : List Char} {c : Char} {t : List Char}
    (h : isTail s (c :: t)) : s = c :: t ∨ isTail s t := by
  obtain ⟨u, hu⟩ := h
  cases u with
  | nil => exact Or.inl (by simpa using hu.symm)
  | cons x v =>
    rw [List.cons_append, List.cons.injEq] at hu
    exact Or.inr ⟨v, hu.2⟩

theorem dropWhile_isTail (p : Char → Bool) (l : List Char) :
    isTail (l.dropWhile p) l :=
  ⟨l.takeWhile p, (List.takeWhile_append_dropWhile p l).symm⟩

theorem matchLow_isTail : ∀ (ps l r : List Char), matchLow ps l = some r → isTail r l
  | [], l, r, h => by
    simp [matchLow] at h
    exact h ▸ isTail_refl l
  | p :: ps, [], r, h => by simp [matchLow] at h
  | p :: ps, c :: cs, r, h => by
    simp only [matchLow] at h
    by_cases hc : (lowAscii c == p) = true
    · rw [if_pos hc] at h
      exact isTail_of_cons (matchLow_isTail ps cs r h)
    · rw [if_neg hc] at h
      exact absurd h (by simp)

theorem matchLit_isTail : ∀ (ps l r : List Char), matchLit ps l = some r → isTail r l
  | [], l, r, h => by
    simp [matchLit] at h
    exact h ▸ isTail_refl l
  | p :: ps, [], r, h => by simp [matchLit] at h
  | p :: ps, c :: cs, r, h => by
    simp only [matchLit] at h
    by_cases hc : (c == p) = true
    · rw [if_pos hc] at h
      exact isTail_of_cons (matchLit_isTail ps cs r h)
    · rw [if_neg hc] at h
      exact absurd h (by simp)

theorem expectOne_isTail {p : Char → Bool} {l r : List Char}
    (h : expectOne p l = some r) : isTail r l := by
  cases l with
  | nil => simp [expectOne] at h
  | cons c t =>
    simp only [expectOne] at h
    by_cases hc : p c = true
    · rw [if_pos hc] at h
      injection h with h
      exact h ▸ isTail_of_cons (isTail_refl t)
    · rw [if_neg hc] at h
      exact absurd h (by simp)

theorem matchLow_ext {y : List Char} :
    ∀ (ps l r : List Char), matchLow ps l = some r → matchLow ps (l ++ y) = some (r ++ y)
  | [], l, r, h => by
    simp [matchLow] at h
    simp [matchLow, h]
  | p :: ps, [], r, h => by simp [matchLow] at h
  | p :: ps, c :: cs, r, h => by
    simp only [matchLow] at h ⊢
    by_cases hc : (lowAscii c == p) = true
    · rw [if_pos hc] at h ⊢
      exact matchLow_ext ps cs r h
    · rw [if_neg hc] at h
      exact absurd h (by simp)

theorem matchLit_ext {y : List Char} :
    ∀ (ps l r : List Char), matchLit ps l = some r → matchLit ps (l ++ y) = some (r ++ y)
  | [], l, r, h => by
    simp [matchLit] at h
    simp [matchLit, h]
  | p :: ps, [], r, h => by simp [matchLit] at h
  | p :: ps, c :: cs, r, h => by
    simp only [matchLit] at h ⊢
    by_cases hc : (c == p) = true
    · rw [if_pos hc] at h ⊢
      exact matchLit_ext ps cs r h
    · rw [if_neg hc] at h
      exact absurd h (by simp)

theorem dropWhile_cons_ext {p : Char → Bool} {y : List Char} :
    ∀ (l : List Char) (d : Char) (rest : List Char), l.dropWhile p = d :: rest →
    (l ++ y).dropWhile p = d :: (rest ++ y)
  | [], d, rest, h => by simp at h
  | c :: t, d, rest, h => by
    simp only [List.dropWhile_cons] at h
    by_cases hc : p c = true
    · rw [if_pos hc] at h
      simp only [List.cons_append, List.dropWhile_cons, hc, if_pos]
      exact dropWhile_cons_ext t d rest h
    · rw [if_neg hc] at h
      injection h with h1 h2
      subst h1
      subst h2
      simp only [List.cons_append, List.dropWhile_cons]
      rw [if_neg hc]

theorem takeWhile_cons_ext {p : Char → Bool} {y : List Char} :
    ∀ (l : List Char) (d : Char) (rest : List Char), l.dropWhile p = d :: rest →
    (l ++ y).takeWhile p = l.takeWhile p
  | [], d, rest, h => by simp at h
  | c :: t, d, rest, h => by
    simp only [List.dropWhile_cons] at h
    by_cases hc : p c = true
    · rw [if_pos hc] at h
      simp only [List.cons_append, List.takeWhile_cons, hc, if_pos]
      rw [takeWhile_cons_ext t d rest h]
    · rw [if_neg hc] at h
      simp only [List.cons_append, List.takeWhile_cons]
      rw [if_neg hc, if_neg hc]

theorem reSearch_some_tail {α : Type} {f : List Char → Option α} :
    ∀ {l : List Char} {a : α}, reSearch f l = some a → ∃ s, isTail s l ∧ f s = some a := by
  intro l
  induction l with
  | nil =>
    intro a h
    exact ⟨[], isTail_refl [], h⟩
  | cons c t ih =>
    intro a h
    simp only [reSearch] at h
    cases hf : f (c :: t) with
    | some b =>
      rw [hf] at h
      exact ⟨c :: t, isTail_refl _, hf.trans h⟩
    | none =>
      rw [hf] at h
      obtain ⟨s, hs, hfs⟩ := ih h
      exact ⟨s, isTail_of_cons hs, hfs⟩

theorem reSearch_none_tail {α : Type} {f : List Char → Option α} :
    ∀ {l : List Char}, reSearch f l = none → ∀ s, isTail s l → f s = none := by
  intro l
  induction l with
  | nil =>
    intro h s hs
    obtain ⟨u, hu⟩ := hs
    have h1 : s = [] := by
      cases u with
      | nil => simpa using hu.symm
      | cons x v => simp at hu
    rw [h1]
    exact h
  | cons c t ih =>
    intro h s hs
    simp only [reSearch] at h
    cases hf : f (c :: t) with
    | some b => rw [hf] at h; exact absurd h (by simp)
    | none =>
      rw [hf] at h
      rcases isTail_cases hs with h1 | h1
      · rw [h1]; exact hf
      · exact ih h s h1

theorem reSearch_ne_none_of_tail {α : Type} {f : List Char → Option α} :
    ∀ {l s : List Char} {a : α}, isTail s l → f s = some a → reSearch f l ≠ none := by
  intro l s a hs hf h
  exact absurd (reSearch_none_tail h s hs) (by simp [hf])

/-- Dissection of a successful `VALOR_RE` match at a position. -/
theorem matchValorAt_some_parts {l g : List Char} (h : matchValorAt l = some g) :
    ∃ r1 r3 s d1 d2 rest,
      matchLow "valor:".data l = some r1 ∧
      matchLow "r$".data (dropSpaces r1) = some r3 ∧
      (dropSpaces r3).takeWhile isDig ≠ [] ∧
      (dropSpaces r3).dropWhile isDig = s :: d1 :: d2 :: rest ∧
      ((s == '.' || s == ',') && isDig d1 && isDig d2) = true ∧
      g = (dropSpaces r3).takeWhile isDig ++ [s, d1, d2] := by
  unfold matchValorAt at h
  cases h1 : matchLow "valor:".data l with
  | none => rw [h1] at h; exact absurd h (by simp)
  | some r1 =>
    rw [h1] at h
    simp only [Option.some_bind] at h
    cases h2 : matchLow "r$".data (dropSpaces r1) with
    | none => rw [h2] at h; exact absurd h (by simp)
    | some r3 =>
      rw [h2] at h
      simp only [Option.some_bind] at h
      by_cases hds : ((dropSpaces r3).takeWhile isDig).isEmpty = true
      · rw [if_pos hds] at h
        exact absurd h (by simp)
      · rw [if_neg hds] at h
        split at h
        · next s d1 d2 rest heq =>
          split at h
          · next hg =>
            refine ⟨r1, r3, s, d1, d2, rest, rfl, h2, ?_, heq, hg, ?_⟩
            · intro he
              rw [he] at hds
              exact hds rfl
            · injection h with h
              exact h.symm
          · next hg => exact absurd h (by simp)
        · next hshape => exact absurd h (by simp)

/-- A nonempty case-insensitive literal cannot match the empty input. -/
theorem matchLow_cons_input {p : Char} {ps l r : List Char}
    (h : matchLow (p :: ps) l = some r) : ∃ c t, l = c :: t := by
  cases l with
  | nil => exact absurd h (by simp [matchLow])
  | cons c t => exact ⟨c, t, rfl⟩

theorem dropSpaces_append_of_cons {l y : List Char} {c : Char} {t : List Char}
    (h : dropSpaces l = c :: t) : dropSpaces (l ++ y) = (dropSpaces l) ++ y := by
  unfold dropSpaces at *
  rw [h]
  exact dropWhile_cons_ext l c t h

/-- A successful `VALOR_RE` match at a position still succeeds, with the same
capture, when more text follows on the right. -/
theorem matchValorAt_ext {l g y : List Char} (h : matchValorAt l = some g) :
    matchValorAt (l ++ y) = some g := by
  obtain ⟨r1, r3, s, d1, d2, rest, h1, h2, hds, h3, hg, hcap⟩ := matchValorAt_some_parts h
  have e1 : matchLow "valor:".data (l ++ y) = some (r1 ++ y) := matchLow_ext _ _ _ h1
  obtain ⟨c2, t2, hct2⟩ := matchLow_cons_input (l := dropSpaces r1) h2
  have e2 : dropSpaces (r1 ++ y) = (dropSpaces r1) ++ y := dropSpaces_append_of_cons hct2
  have e3 : matchLow "r$".data ((dropSpaces r1) ++ y) = some (r3 ++ y) :=
    matchLow_ext _ _ _ h2
  obtain ⟨c4, t4, hct4⟩ : ∃ c t, dropSpaces r3 = c :: t := by
    cases h4 : dropSpaces r3 with
    | nil =>
      rw [show (dropSpaces r3).takeWhile isDig = [] by rw [h4]; rfl] at hds
      exact absurd rfl hds
    | cons c t => exact ⟨c, t, rfl⟩
  have e4 : dropSpaces (r3 ++ y) = (dropSpaces r3) ++ y := dropSpaces_append_of_cons hct4
  have e5 : ((dropSpaces r3) ++ y).takeWhile isDig = (dropSpaces r3).takeWhile isDig :=
    takeWhile_cons_ext (dropSpaces r3) s (d1 :: d2 :: rest) h3
  have e6 : ((dropSpaces r3) ++ y).dropWhile isDig = s :: d1 :: d2 :: (rest ++ y) :=
    dropWhile_cons_ext (dropSpaces r3) s (d1 :: d2 :: rest) h3
  unfold matchValorAt
  rw [e1]
  simp only [Option.some_bind]
  rw [e2, e3]
  simp only [Option.some_bind]
  rw [e4, e5, e6]
  have hne : ((dropSpaces r3).takeWhile isDig).isEmpty = false := by
    cases hq : (dropSpaces r3).takeWhile isDig with
    | nil => exact absurd hq hds
    | cons x xs => rfl
  rw [hne]
  simp only [Bool.false_eq_true, if_false]
  rw [hg]
  simp only [if_true]
  rw [hcap]

/-- Shape of every `VALOR_RE` capture: a nonempty digit run, one separator,
two digits. -/
theorem searchValor_shape {l g : List Char} (h : searchValor l = some g) :
    ∃ ds s d1 d2, g = ds ++ [s, d1, d2] ∧ ds ≠ [] ∧ (∀ c ∈ ds, isDig c = true) ∧
      (s = '.' ∨ s = ',') ∧ isDig d1 = true ∧ isDig d2 = true := by
  obtain ⟨sfx, _, hm⟩ := reSearch_some_tail h
  obtain ⟨r1, r3, s, d1, d2, rest, _, _, hds, _, hg, hcap⟩ := matchValorAt_some_parts hm
  simp only [Bool.and_eq_true, Bool.or_eq_true, beq_iff_eq] at hg
  exact ⟨(dropSpaces r3).takeWhile isDig, s, d1, d2, hcap, hds,
    fun c hc => List.mem_takeWhile_imp hc, hg.1.1, hg.1.2, hg.2⟩

/-- `to_decimal` always succeeds on a `VALOR_RE` capture and the value is
nonnegative. -/
theorem to_decimal_capture {ds : List Char} {s d1 d2 : Char}
    (hds : ∀ c ∈ ds, isDig c = true) (_hne : ds ≠ []) (hs : s = '.' ∨ s = ',')
    (h1 : isDig d1 = true) (h2 : isDig d2 = true) :
    ∃ q, to_decimal (ds ++ [s, d1, d2]) = some q ∧ 0 ≤ q := by
  have hb : ∀ c ∈ [d1, d2], isDig c = true := by
    intro c hc
    rcases List.mem_cons.1 hc with h | h
    · rw [h]; exact h1
    · rcases List.mem_cons.1 h with h | h
      · rw [h]; exact h2
      · simp at h
  rcases hs with hs | hs
  · subst hs
    exact ⟨_, to_decimal_dot ds [d1, d2] hds hb (by simp), mkRat_nonneg_nat _ _⟩
  · subst hs
    exact ⟨_, to_decimal_comma ds [d1, d2] hds hb (by simp), mkRat_nonneg_nat _ _⟩

/-- `extractOne` produces no record exactly when `VALOR_RE` finds no amount. -/
theorem extractOne_none_iff (now : Date) (src chunk : List Char) :
    extractOne now src chunk = none ↔ searchValor chunk = none := by
  constructor
  · intro h
    cases hv : searchValor chunk with
    | none => rfl
    | some g =>
      obtain ⟨ds, s, d1, d2, hcap, hne, hdig, hs, h1, h2⟩ := searchValor_shape hv
      obtain ⟨q, hq, _⟩ := to_decimal_capture hdig hne hs h1 h2
      rw [← hcap] at hq
      simp only [extractOne, hv, hq] at h
      cases hd : searchData chunk with
      | none => rw [hd] at h; exact absurd h (by simp)
      | some pr =>
        rw [hd] at h
        cases pr with
        | mk dmy hms => exact absurd h (by simp)
  · intro h
    unfold extractOne
    rw [h]

/-- When `VALOR_RE` finds an amount, `extractOne` emits a record whose
`amount` is the `to_decimal` of the capture — regardless of any date. -/
theorem extractOne_some (now : Date) (src chunk g : List Char)
    (hv : searchValor chunk = some g) :
    ∃ rec q, extractOne now src chunk = some rec ∧ to_decimal g = some q ∧
      rec.amount = q ∧ 0 ≤ q ∧
      rec.date_ymd = (match searchData chunk with
        | some (dmy, hms) => (parse_date now dmy hms).1
        | none => now.toChars) ∧
      rec.created_at = (match searchData chunk with
        | some (dmy, hms) => pyStrip (dmy ++ ' ' :: hms.getD [])
        | none => []) := by
  obtain ⟨ds, s, d1, d2, hcap, hne, hdig, hs, h1, h2⟩ := searchValor_shape hv
  obtain ⟨q, hq, hq0⟩ := to_decimal_capture hdig hne hs h1 h2
  rw [← hcap] at hq
  cases hd : searchData chunk with
  | none =>
    refine ⟨⟨q, now.toChars, [], (searchUser chunk).getD [],
      (searchRef chunk).getD [], pyStrip chunk, src⟩, q, ?_, hq, rfl, hq0, rfl, rfl⟩
    simp only [extractOne, hv, hq, hd]
  | some pr =>
    cases pr with
    | mk dmy hms =>
      refine ⟨⟨q, (parse_date now dmy hms).1, pyStrip (dmy ++ ' ' :: hms.getD []),
        (searchUser chunk).getD [], (searchRef chunk).getD [], pyStrip chunk, src⟩,
        q, ?_, hq, rfl, hq0, rfl, rfl⟩
      simp only [extractOne, hv, hq, hd]

theorem isTail_nil (l : List Char) : isTail [] l := ⟨l, by simp⟩

theorem matchBlockBody_isTail {l r : List Char} (h : matchBlockBody l = some r) :
    isTail r l := by
  unfold matchBlockBody at h
  cases h1 : expectOne (fun c => c == '💰') (dropSpaces l) with
  | none => rw [h1] at h; exact absurd h (by simp)
  | some r1 =>
    rw [h1] at h
    simp only [Option.some_bind] at h
    cases h2 : matchLow "novo".data (dropSpaces r1) with
    | none => rw [h2] at h; exact absurd h (by simp)
    | some r2 =>
      rw [h2] at h
      simp only [Option.some_bind] at h
      by_cases hsp : (r2.takeWhile pySpace).isEmpty = true
      · rw [if_pos hsp] at h
        exact absurd h (by simp)
      · rw [if_neg hsp] at h
        cases h3 : matchLow "dep".data (r2.dropWhile pySpace) with
        | none => rw [h3] at h; exact absurd h (by simp)
        | some r3 =>
          rw [h3] at h
          simp only [Option.some_bind] at h
          cases h4 : expectOne (fun c => c == 'Ó' || c == 'ó' || c == 'O' || c == 'o') r3 with
          | none => rw [h4] at h; exact absurd h (by simp)
          | some r4 =>
            rw [h4] at h
            simp only [Option.some_bind] at h
            cases h5 : matchLow "sito".data r4 with
            | none => rw [h5] at h; exact absurd h (by simp)
            | some r5 =>
              rw [h5] at h
              simp only [Option.some_bind] at h
              have htail : isTail r5 l := by
                refine isTail_trans (matchLow_isTail _ _ _ h5) ?_
                refine isTail_trans (expectOne_isTail h4) ?_
                refine isTail_trans (matchLow_isTail _ _ _ h3) ?_
                refine isTail_trans (dropWhile_isTail pySpace r2) ?_
                refine isTail_trans (matchLow_isTail _ _ _ h2) ?_
                refine isTail_trans (dropWhile_isTail pySpace r1) ?_
                refine isTail_trans (expectOne_isTail h1) ?_
                exact dropWhile_isTail pySpace l
              split at h
              · injection h with h
                rw [← h]
                exact isTail_nil l
              · next c5 heq =>
                by_cases hw : isWordCh c5 = true
                · rw [if_pos hw] at h
                  exact absurd h (by simp)
                · rw [if_neg hw] at h
                  injection h with h
                  rw [← h]
                  exact htail

theorem matchBlockAt_isTail {b : Bool} {l r : List Char}
    (h : matchBlockAt b l = some r) : isTail r l := by
  unfold matchBlockAt at h
  cases hb : (if b then matchBlockBody l else none) with
  | some r0 =>
    rw [hb] at h
    injection h with h
    subst h
    by_cases hbb : b = true
    · rw [if_pos hbb] at hb
      exact matchBlockBody_isTail hb
    · rw [if_neg hbb] at hb
      exact absurd hb (by simp)
  | none =>
    rw [hb] at h
    cases l with
    | nil => exact absurd h (by simp)
    | cons c t =>
      by_cases hc : c = '\n'
      · subst hc
        exact isTail_of_cons (matchBlockBody_isTail h)
      · exfalso
        revert h
        simp only
        split
        · next t' heq =>
          rw [List.cons.injEq] at heq
          exact fun _ => hc heq.1
        · simp

theorem isPart_refl (l : List Char) : isPart l l := ⟨[], [], by simp⟩

theorem isPart_of_isTail {s l : List Char} (h : isTail s l) : isPart s l := by
  obtain ⟨u, hu⟩ := h
  exact ⟨u, [], by simp [hu]⟩

/-- The pieces `blockFindAux` returns: the prefix before the separator, and a
suffix of the remainder. -/
theorem blockFindAux_parts :
    ∀ (l : List Char) (b : Bool) (p r : List Char),
    blockFindAux l b = some (p, r) → ∃ q, l = p ++ q ∧ isTail r q := by
  intro l
  induction l with
  | nil =>
    intro b p r h
    simp only [blockFindAux] at h
    cases hm : matchBlockAt b [] with
    | none => rw [hm] at h; exact absurd h (by simp)
    | some r0 =>
      rw [hm] at h
      injection h with h
      rw [Prod.mk.injEq] at h
      exact ⟨[], by simp [← h.1], h.2 ▸ matchBlockAt_isTail hm⟩
  | cons c t ih =>
    intro b p r h
    simp only [blockFindAux] at h
    cases hm : matchBlockAt b (c :: t) with
    | some r0 =>
      rw [hm] at h
      injection h with h
      rw [Prod.mk.injEq] at h
      exact ⟨c :: t, by simp [← h.1], h.2 ▸ matchBlockAt_isTail hm⟩
    | none =>
      rw [hm] at h
      cases hf : blockFindAux t false with
      | none => rw [hf] at h; exact absurd h (by simp)
      | some pr =>
        rw [hf] at h
        cases pr with
        | mk p' r' =>
          simp only [Option.map_some] at h
          injection h with h
          rw [Prod.mk.injEq] at h
          obtain ⟨q, hq, hr⟩ := ih false p' r' hf
          refine ⟨q, ?_, h.2 ▸ hr⟩
          rw [← h.1, List.cons_append, hq]

/-- Every chunk `re.split` produces is a contiguous substring of the input. -/
theorem blockSplitAux_isPart :
    ∀ (fuel : Nat) (b : Bool) (l c : List Char),
    c ∈ blockSplitAux fuel b l → isPart c l := by
  intro fuel
  induction fuel with
  | zero =>
    intro b l c h
    simp only [blockSplitAux, List.mem_singleton] at h
    exact h ▸ isPart_refl l
  | succ n ih =>
    intro b l c h
    simp only [blockSplitAux] at h
    cases hf : blockFindAux l b with
    | none =>
      rw [hf] at h
      simp only [List.mem_singleton] at h
      exact h ▸ isPart_refl l
    | some pr =>
      rw [hf] at h
      cases pr with
      | mk p r =>
        obtain ⟨q, hq, hr⟩ := blockFindAux_parts l b p r hf
        rcases List.mem_cons.1 h with h1 | h1
        · subst h1
          exact ⟨[], q, by simp [hq]⟩
        · obtain ⟨u1, v1, huv⟩ := ih false r c h1
          obtain ⟨w, hw⟩ := hr
          exact ⟨p ++ w ++ u1, v1, by simp [hq, hw, huv]⟩

theorem blockSplit_isPart {l c : List Char} (h : c ∈ blockSplit l) : isPart c l :=
  blockSplitAux_isPart (l.length + 1) true l c h

/-- If `VALOR_RE` matches nowhere in a text, it matches nowhere in any
contiguous substring of it. -/
theorem searchValor_none_isPart {c t : List Char}
    (hpart : isPart c t) (h : searchValor t = none) : searchValor c = none := by
  cases hv : searchValor c with
  | none => rfl
  | some g =>
    exfalso
    obtain ⟨s, hs, hms⟩ := reSearch_some_tail hv
    obtain ⟨u, v, huv⟩ := hpart
    obtain ⟨w, hw⟩ := hs
    have hext : matchValorAt (s ++ v) = some g := matchValorAt_ext hms
    have htail : isTail (s ++ v) t := by
      refine ⟨u ++ w, ?_⟩
      rw [huv, hw]
      simp
    exact reSearch_ne_none_of_tail htail hext h

theorem filterMap_length_countP {α β : Type} (f : α → Option β) (l : List α) :
    (l.filterMap f).length = l.countP (fun x => (f x).isSome) := by
  induction l with
  | nil => rfl
  | cons x t ih =>
    cases hf : f x with
    | none =>
      rw [List.filterMap_cons, hf, List.countP_cons]
      simp [hf, ih]
    | some b =>
      rw [List.filterMap_cons, hf, List.countP_cons]
      simp [hf, ih]

theorem filterMap_eq_filterMap_filter {α β : Type} (f : α → Option β) (l : List α) :
    l.filterMap f = (l.filter (fun x => (f x).isSome)).filterMap f := by
  induction l with
  | nil => rfl
  | cons x t ih =>
    cases hf : f x with
    | none =>
      rw [List.filterMap_cons, hf, List.filter_cons]
      simp [hf, ih]
    | some b =>
      rw [List.filterMap_cons, hf, List.filter_cons]
      simp only [hf, Option.isSome_some, if_true]
      rw [List.filterMap_cons, hf]
      simp [ih]

theorem length_two_pair {α : Type} {l : List α} (h : l.length = 2) :
    ∃ a b, l = [a, b] := by
  cases l with
  | nil => simp at h
  | cons a t =>
    cases t with
    | nil => simp at h
    | cons b u =>
      cases u with
      | nil => exact ⟨a, b, rfl⟩
      | cons c v => simp [List.length_cons] at h

/-- The `mkRat` decimal value is the usual integer-part-plus-fraction sum. -/
theorem mkRat_decimal_eq (a b : List Char) :
    mkRat (ofDigits (a ++ b)) (10 ^ b.length) =
      (ofDigits a : ℚ) + (ofDigits b : ℚ) / 10 ^ b.length := by
  rw [Rat.mkRat_eq_div, ofDigits_append]
  field_simp

/-- Claim C2: `to_decimal` is deterministic (it is a function of its input)
and normalizes locale amount strings: with only a comma the comma is the
decimal point; with both separators every dot is deleted and the comma is the
decimal point; in particular `to_decimal "1.234,56" = 1234.56` and
`to_decimal "8,00" = 8.00`. -/
theorem c2_to_decimal_normalizes (a b d c : List Char)
    (ha : ∀ ch ∈ a, isDig ch = true) (hb : ∀ ch ∈ b, isDig ch = true)
    (hd : ∀ ch ∈ d, isDig ch = true ∨ ch = '.') (hddot : '.' ∈ d)
    (hc : ∀ ch ∈ c, isDig ch = true) (hbne : b ≠ []) (hcne : c ≠ []) :
    (to_decimal (a ++ ',' :: b) =
      some ((ofDigits a : ℚ) + (ofDigits b : ℚ) / 10 ^ b.length)) ∧
    (to_decimal (d ++ ',' :: c) =
      some ((ofDigits (d.filter (fun ch => ch != '.')) : ℚ) +
        (ofDigits c : ℚ) / 10 ^ c.length)) ∧
    to_decimal ("1.234,56".data) = some (1234.56 : ℚ) ∧
    to_decimal ("8,00".data) = some (8.00 : ℚ) := by
  refine ⟨?_, ?_, ?_, ?_⟩
  · rw [to_decimal_comma a b ha hb hbne, mkRat_decimal_eq]
  · rw [to_decimal_both d c hddot hd hc hcne, mkRat_decimal_eq]
  · rw [show to_decimal ("1.234,56".data) = some (mkRat 123456 100) from by decide]
    norm_num [Rat.mkRat_eq_div]
  · rw [show to_decimal ("8,00".data) = some (mkRat 8 1) from by decide]
    norm_num [Rat.mkRat_eq_div]

/-- Witness for C2 at `a = "1"`, `b = "50"`, `d = "1.234"`, `c = "56"`. -/
theorem c2_witness :
    (to_decimal ("1,50".data) =
      some ((ofDigits ("1".data) : ℚ) + (ofDigits ("50".data) : ℚ) / 10 ^ 2)) ∧
    (to_decimal ("1.234,56".data) =
      some ((ofDigits ("1234".data) : ℚ) + (ofDigits ("56".data) : ℚ) / 10 ^ 2)) ∧
    to_decimal ("1.234,56".data) = some (1234.56 : ℚ) ∧
    to_decimal ("8,00".data) = some (8.00 : ℚ) := by
  have h := c2_to_decimal_normalizes ("1".data) ("50".data) ("1.234".data) ("56".data)
    (by decide) (by decide) (by decide) (by decide) (by decide) (by decide) (by decide)
  refine ⟨?_, ?_, h.2.2.1, h.2.2.2⟩
  · simpa using h.1
  · have h2 := h.2.1
    rw [show ("1.234".data).filter (fun ch => ch != '.') = "1234".data from by decide] at h2
    simpa using h2

/-- Claim C5: contrary to the spec, `VALOR_RE` does not capture a full
thousands-grouped amount: on "Valor: R$ 1.234,56" the capture stops two
digits after the first separator, so the stored amount is 1.23, not 1234.56.
The regex `(\d+[.,]\d{2})` cannot span a second separator. -/
theorem c5_valor_truncates_amount :
    searchValor ("Valor: R$ 1.234,56".data) = some ("1.23".data) ∧
    (extract_deposits_from_text ⟨2024, 5, 5⟩ ("manual_text".data)
        ("Valor: R$ 1.234,56".data)).map (fun d => d.amount) = [mkRat 123 100] ∧
    mkRat 123 100 ≠ (1234.56 : ℚ) := by
  refine ⟨by decide, by decide, ?_⟩
  norm_num [Rat.mkRat_eq_div]

/-- Claim C9: a text in which `VALOR_RE` matches nowhere produces no
records: the per-chunk pass finds nothing in any chunk (each chunk is a
contiguous substring of the normalised text) and the whole-text fallback
finds nothing either; empty input produces no records outright. -/
theorem c9_no_amount_yields_empty (now : Date) (src text : List Char) :
    extract_deposits_from_text now src [] = [] ∧
    (searchValor (pyNormalize text) = none →
      extract_deposits_from_text now src text = []) := by
  refine ⟨rfl, ?_⟩
  intro h
  have hcp : chunk_pass now src text = [] := by
    unfold chunk_pass
    rw [List.filterMap_eq_nil_iff]
    intro c hc
    exact (extractOne_none_iff now src c).2
      (searchValor_none_isPart (blockSplit_isPart hc) h)
  unfold extract_deposits_from_text
  rw [hcp, (extractOne_none_iff now src (pyNormalize text)).2 h]
  simp

/-- Witness for C9 on the amount-free text "hello world". -/
theorem c9_witness :
    extract_deposits_from_text ⟨2024, 1, 1⟩ ("manual_text".data) [] = [] ∧
    extract_deposits_from_text ⟨2024, 1, 1⟩ ("manual_text".data)
      ("hello world".data) = [] := by
  have h := c9_no_amount_yields_empty ⟨2024, 1, 1⟩ ("manual_text".data)
    ("hello world".data)
  exact ⟨h.1, h.2 (by decide)⟩

/-- Any record `extractOne` emits has a nonnegative amount: `VALOR_RE`
captures an unsigned digit string, and `to_decimal` of it is a ratio of
naturals. -/
theorem extractOne_amount_nonneg {now : Date} {src chunk : List Char}
    {d : Deposit} (h : extractOne now src chunk = some d) : 0 ≤ d.amount := by
  cases hv : searchValor chunk with
  | none => exact absurd h (by rw [(extractOne_none_iff now src chunk).2 hv]; simp)
  | some g =>
    obtain ⟨rec, q, heq, _, hamt, hq0, _, _⟩ := extractOne_some now src chunk g hv
    rw [heq] at h
    cases h
    rw [hamt]
    exact hq0

/-- Claim C10: every deposit record parsed from text has a nonnegative
amount — `VALOR_RE` admits no sign, so both the per-chunk pass and the
whole-text fallback only produce amounts that are ratios of naturals.
(The expense path is NOT so guarded: see the counterexample, where
`/addexpense -5 x` stores the negative amount -5.) -/
theorem c10_parsed_amounts_nonneg (now : Date) (src text : List Char) :
    ∀ d ∈ extract_deposits_from_text now src text, 0 ≤ d.amount := by
  intro d hd
  unfold extract_deposits_from_text at hd
  split at hd
  · exact absurd hd (by simp)
  · split at hd
    · rw [Option.mem_toList, Option.mem_def] at hd
      exact extractOne_amount_nonneg hd
    · unfold chunk_pass at hd
      obtain ⟨c, _, hc⟩ := List.mem_filterMap.1 hd
      exact extractOne_amount_nonneg hc

/-- Witness for C10: the record parsed from "Valor: R$ 5,00" has a
nonnegative amount. -/
theorem c10_witness :
    0 ≤ (Deposit.mk (mkRat 500 100) ("2024-01-01".data) [] [] []
      ("Valor: R$ 5,00".data) ("manual_text".data)).amount :=
  c10_parsed_amounts_nonneg ⟨2024, 1, 1⟩ ("manual_text".data)
    ("Valor: R$ 5,00".data) _ (by decide)

/-- Counterexample bounding C10: the expense path has no such guard —
`/addexpense -5 x` parses "-5" with `float()` and stores the negative
amount -5 in `expenses`. -/
theorem c10_counterexample :
    (cmd_addexpense ⟨2024, 10, 5⟩ [] [("-5".data), ("x".data)] []).map
      (fun r => r.amount) = [-(mkRat 5 1)] ∧ -(mkRat 5 1) < 0 := by
  refine ⟨by decide, by decide⟩

/-- Claim C7 (amended): `_parse_month_year` validates the month only when
BOTH leading arguments are present and all-digit — then a month outside 1..12
is rejected with `ValueError` and a month inside it is accepted verbatim. In
every other case — no arguments, a lone month with no year, or a non-digit
pair — the pair is silently replaced by the current month and year (no
rejection), contrary to the spec. -/
theorem c7_month_year_validation (nowM nowY : Nat) (args : List (List Char)) :
    (∀ a b rest, args = a :: b :: rest → pyIsdigit a = true → pyIsdigit b = true →
      ((¬(1 ≤ ofDigits a ∧ ofDigits a ≤ 12) →
          parse_month_year nowM nowY args = Except.error ("Mes invalido 1-12".data)) ∧
       (1 ≤ ofDigits a → ofDigits a ≤ 12 →
          parse_month_year nowM nowY args = Except.ok (ofDigits a, ofDigits b)))) ∧
    ((∀ a b rest, args = a :: b :: rest → ¬(pyIsdigit a = true ∧ pyIsdigit b = true)) →
      1 ≤ nowM → nowM ≤ 12 →
      parse_month_year nowM nowY args = Except.ok (nowM, nowY)) := by
  constructor
  · intro a b rest hargs hda hdb
    subst hargs
    constructor
    · intro hnot
      simp only [parse_month_year, hda, hdb, Bool.and_self, if_true]
      rw [if_neg]
      simp only [Bool.and_eq_true, decide_eq_true_eq]
      exact hnot
    · intro h1 h2
      simp only [parse_month_year, hda, hdb, Bool.and_self, if_true]
      rw [if_pos]
      simp only [Bool.and_eq_true, decide_eq_true_eq]
      exact ⟨h1, h2⟩
  · intro hnd hm1 hm2
    have hok : (decide (1 ≤ nowM) && decide (nowM ≤ 12)) = true := by
      simp only [Bool.and_eq_true, decide_eq_true_eq]
      exact ⟨hm1, hm2⟩
    match args with
    | [] => simp only [parse_month_year, hok, if_true]
    | [a] => simp only [parse_month_year, hok, if_true]
    | a :: b :: rest =>
      have := hnd a b rest rfl
      have hff : (pyIsdigit a && pyIsdigit b) = false := by
        cases h : (pyIsdigit a && pyIsdigit b)
        · rfl
        · exact absurd (by simpa using h) this
      simp only [parse_month_year, hff, Bool.false_eq_true, if_false, hok, if_true]

/-- Witness for C7: "13 2024" is rejected, "5 2024" is accepted as May 2024,
and the digit-free pair "x y" silently becomes the current July 2024. -/
theorem c7_witness :
    parse_month_year 7 2024 [("13".data), ("2024".data)] =
      Except.error ("Mes invalido 1-12".data) ∧
    parse_month_year 7 2024 [("5".data), ("2024".data)] = Except.ok (5, 2024) ∧
    parse_month_year 7 2024 [("x".data), ("y".data)] = Except.ok (7, 2024) := by
  refine ⟨?_, ?_, ?_⟩
  · exact (((c7_month_year_validation 7 2024 [("13".data), ("2024".data)]).1
      ("13".data) ("2024".data) [] rfl (by decide) (by decide)).1 (by decide))
  · exact (((c7_month_year_validation 7 2024 [("5".data), ("2024".data)]).1
      ("5".data) ("2024".data) [] rfl (by decide) (by decide)).2 (by decide) (by decide))
  · refine ((c7_month_year_validation 7 2024 [("x".data), ("y".data)]).2 ?_
      (by decide) (by decide))
    intro a b rest hargs hab
    rw [List.cons.injEq] at hargs
    rw [← hargs.1] at hab
    exact absurd hab.1 (by decide)

/-- Counterexample to C7 as stated: a lone month argument "5" (month without
year) is NOT rejected — it is silently replaced by the current (7, 2024); and
`_range_from_args` builds the range for month 13 with no validation at all,
producing the impossible dates 2024-13-01 and 2024-14-01. -/
theorem c7_counterexample :
    parse_month_year 7 2024 [("5".data)] = Except.ok (7, 2024) ∧
    range_from_args 7 2024 [("13".data), ("2024".data)] =
      (("2024-13-01".data), ("2024-14-01".data)) := by
  refine ⟨by decide, by decide⟩

/-- Claim C8: a record is never rejected because of its date. Whenever the
amount matches, a record is emitted; if `DATA_RE` matches but names a
semantically invalid calendar date (e.g. 32/13/2024), `parse_date` falls back
to the current processing date; if `DATA_RE` does not match at all, the date
is the current processing date and the stored time-of-day string is empty. -/
theorem c8_date_leniency (now : Date) (src chunk g : List Char)
    (hv : searchValor chunk = some g) :
    (extractOne now src chunk).isSome = true ∧
    (∀ dmy hms, searchData chunk = some (dmy, hms) → parseDMY dmy = none →
      (extractOne now src chunk).map (fun r => r.date_ymd) = some now.toChars) ∧
    (searchData chunk = none →
      (extractOne now src chunk).map (fun r => (r.date_ymd, r.created_at)) =
        some (now.toChars, ([] : List Char))) := by
  obtain ⟨rec, q, heq, hg, hamt, hq0, hdate, hcre⟩ := extractOne_some now src chunk g hv
  refine ⟨by rw [heq]; rfl, ?_, ?_⟩
  · intro dmy hms hd hpd
    simp only [hd] at hdate
    rw [heq]
    show some rec.date_ymd = some now.toChars
    rw [hdate]
    simp only [parse_date, hpd]
  · intro hd
    simp only [hd] at hdate hcre
    rw [heq]
    show some (rec.date_ymd, rec.created_at) = some (now.toChars, ([] : List Char))
    rw [hdate, hcre]

/-- Witness for C8: with the syntactically well-formed but impossible date
32/13/2024 the record is emitted and dated with the processing date
2025-01-02; with no date field at all the record is dated 2025-01-02 with an
empty time-of-day. -/
theorem c8_witness :
    ((extractOne ⟨2025, 1, 2⟩ ("manual_text".data)
        ("Valor: R$ 5,00\nData: 32/13/2024".data)).isSome = true) ∧
    ((extractOne ⟨2025, 1, 2⟩ ("manual_text".data)
        ("Valor: R$ 5,00\nData: 32/13/2024".data)).map (fun r => r.date_ymd) =
      some (Date.toChars ⟨2025, 1, 2⟩)) ∧
    ((extractOne ⟨2025, 1, 2⟩ ("manual_text".data)
        ("Valor: R$ 5,00".data)).map (fun r => (r.date_ymd, r.created_at)) =
      some (Date.toChars ⟨2025, 1, 2⟩, ([] : List Char))) := by
  have h1 := c8_date_leniency ⟨2025, 1, 2⟩ ("manual_text".data)
    ("Valor: R$ 5,00\nData: 32/13/2024".data) ("5,00".data) (by decide)
  have h2 := c8_date_leniency ⟨2025, 1, 2⟩ ("manual_text".data)
    ("Valor: R$ 5,00".data) ("5,00".data) (by decide)
  exact ⟨h1.1, h1.2.1 ("32/13/2024".data) none (by decide)
    (by decide), h2.2.2 (by decide)⟩

/-- Every fold of `insert_payment_manual` steps preserves membership of an
existing row: each insert only appends. -/
theorem foldl_insert_mem (source nowIso : List Char) (r : PaymentRow) :
    ∀ (ds : List Deposit) (db : List PaymentRow), r ∈ db →
      r ∈ ds.foldl (fun acc d =>
        insert_payment_manual d.date_ymd d.amount d.created_at d.user_code
          d.referrer_code d.raw source nowIso acc) db
  | [], _, hr => hr
  | d :: t, db, hr => by
    rw [List.foldl_cons]
    exact foldl_insert_mem source nowIso r t _
      (by unfold insert_payment_manual; exact List.mem_append.2 (Or.inl hr))

/-- Claim C6 (amended): contrary to the spec, the text-ingestion path never
invokes the retention pruner — `cleanup_old_months` is defined but called
nowhere in the program — so ingestion only ever appends rows, and every
pre-existing row, however old, is still present afterwards. -/
theorem c6_ingest_never_prunes (now : Date) (nowIso source : List Char)
    (db : List PaymentRow) (text : List Char) :
    ∀ r ∈ db, r ∈ (process_text_and_reply now nowIso source db text).1 := by
  intro r hr
  unfold process_text_and_reply
  by_cases hd : (extract_deposits_from_text now source text).isEmpty = true
  · simp only [hd, if_true]
    exact hr
  · simp only [hd, Bool.false_eq_true, if_false]
    exact foldl_insert_mem source nowIso r (extract_deposits_from_text now source text)
      db hr

/-- Witness for C6: a successful ingestion (it returns `true`) leaves the
six-years-stale row from 2020 in the table. -/
theorem c6_witness :
    (⟨("2020-01-01".data), mkRat 5 1, [], [], [], [], [], []⟩ : PaymentRow) ∈
      (process_text_and_reply ⟨2024, 10, 5⟩ [] ("manual_text".data)
        [⟨("2020-01-01".data), mkRat 5 1, [], [], [], [], [], []⟩]
        ("Valor: R$ 7,77".data)).1 :=
  c6_ingest_never_prunes ⟨2024, 10, 5⟩ [] ("manual_text".data)
    [⟨("2020-01-01".data), mkRat 5 1, [], [], [], [], [], []⟩]
    ("Valor: R$ 7,77".data) _ (by decide)

/-- Counterexample to C6 as stated: after this successful ingestion
(return value `true`) the 2020 row is still present although its date is
strictly before the 6-month retention cutoff 2024-04-01 — the state the spec
promises after ingestion does not hold. -/
theorem c6_counterexample :
    (process_text_and_reply ⟨2024, 10, 5⟩ [] ("manual_text".data)
        [⟨("2020-01-01".data), mkRat 5 1, [], [], [], [], [], []⟩]
        ("Valor: R$ 7,77".data)).2 = true ∧
    (⟨("2020-01-01".data), mkRat 5 1, [], [], [], [], [], []⟩ : PaymentRow) ∈
      (process_text_and_reply ⟨2024, 10, 5⟩ [] ("manual_text".data)
        [⟨("2020-01-01".data), mkRat 5 1, [], [], [], [], [], []⟩]
        ("Valor: R$ 7,77".data)).1 ∧
    strLt ("2020-01-01".data) (cleanup_cutoff 2024 10 6) = true := by
  refine ⟨by decide, by decide, by decide⟩

/-- `extractOne` emits a record exactly when `VALOR_RE` matches. -/
theorem extractOne_isSome_eq (now : Date) (src c : List Char) :
    (extractOne now src c).isSome = (searchValor c).isSome := by
  cases hv : searchValor c with
  | none => rw [(extractOne_none_iff now src c).2 hv]; rfl
  | some g =>
    obtain ⟨rec, q, heq, _⟩ := extractOne_some now src c g hv
    rw [heq]
    rfl

/-- Claim C1: when exactly two chunks of the block split carry a `VALOR_RE`
match, parsing returns exactly the two records of those chunks in document
order; a markerless text whose single chunk carries a match yields exactly
one record — produced by the per-chunk pass itself, NOT by the whole-text
fallback (which the code only attempts when the per-chunk pass produced
nothing); and the fallback emits at most one record. -/
theorem c1_parse_structure (now : Date) (src text : List Char) :
    ((blockSplit (pyNormalize text)).countP (fun c => (searchValor c).isSome) = 2 →
      ∃ c1 c2 r1 r2,
        (blockSplit (pyNormalize text)).filter (fun c => (searchValor c).isSome) =
          [c1, c2] ∧
        extractOne now src c1 = some r1 ∧ extractOne now src c2 = some r2 ∧
        extract_deposits_from_text now src text = [r1, r2]) ∧
    (blockSplit (pyNormalize text) = [pyNormalize text] →
      (searchValor (pyNormalize text)).isSome = true → text ≠ [] →
      chunk_pass now src text ≠ [] ∧
      extract_deposits_from_text now src text = chunk_pass now src text ∧
      (extract_deposits_from_text now src text).length = 1) ∧
    (extract_deposits_from_text now src text =
      (if (chunk_pass now src text).isEmpty then
        (if text.isEmpty then ([] : List Deposit)
         else (extractOne now src (pyNormalize text)).toList)
       else chunk_pass now src text)) ∧
    (extractOne now src (pyNormalize text)).toList.length ≤ 1 := by
  refine ⟨?_, ?_, ?_, ?_⟩
  · intro h2
    have htext : text ≠ [] := by
      intro he
      subst he
      exact absurd h2 (by decide)
    have hfillen : ((blockSplit (pyNormalize text)).filter
        (fun c => (searchValor c).isSome)).length = 2 := by
      rw [← List.countP_eq_length_filter]
      exact h2
    obtain ⟨c1, c2, hpair⟩ := length_two_pair hfillen
    have hm1 : c1 ∈ (blockSplit (pyNormalize text)).filter
        (fun c => (searchValor c).isSome) := by rw [hpair]; simp
    have hm2 : c2 ∈ (blockSplit (pyNormalize text)).filter
        (fun c => (searchValor c).isSome) := by rw [hpair]; simp
    obtain ⟨g1, hg1⟩ := Option.isSome_iff_exists.1 (List.mem_filter.1 hm1).2
    obtain ⟨g2, hg2⟩ := Option.isSome_iff_exists.1 (List.mem_filter.1 hm2).2
    obtain ⟨r1, q1, he1, _⟩ := extractOne_some now src c1 g1 hg1
    obtain ⟨r2, q2, he2, _⟩ := extractOne_some now src c2 g2 hg2
    refine ⟨c1, c2, r1, r2, hpair, he1, he2, ?_⟩
    have hchunk : chunk_pass now src text = [r1, r2] := by
      unfold chunk_pass
      rw [filterMap_eq_filterMap_filter]
      rw [List.filter_congr (fun c _ => extractOne_isSome_eq now src c)]
      rw [hpair]
      simp [List.filterMap_cons, he1, he2]
    have ht' : text.isEmpty = false := by
      cases text with
      | nil => exact absurd rfl htext
      | cons a t => rfl
    unfold extract_deposits_from_text
    rw [ht', hchunk]
    simp
  · intro hsplit hsome htext
    obtain ⟨g, hg⟩ := Option.isSome_iff_exists.1 hsome
    obtain ⟨rec, q, heq, _⟩ := extractOne_some now src (pyNormalize text) g hg
    have hcp : chunk_pass now src text = [rec] := by
      unfold chunk_pass
      rw [hsplit]
      simp [List.filterMap_cons, heq]
    have ht' : text.isEmpty = false := by
      cases text with
      | nil => exact absurd rfl htext
      | cons a t => rfl
    have hext : extract_deposits_from_text now src text = chunk_pass now src text := by
      unfold extract_deposits_from_text
      rw [ht', hcp]
      simp
    refine ⟨by rw [hcp]; simp, hext, ?_⟩
    rw [hext, hcp]
    rfl
  · by_cases ht : text.isEmpty = true
    · have htn : text = [] := by
        cases text with
        | nil => rfl
        | cons a t => exact absurd ht (by simp)
      subst htn
      have hc : chunk_pass now src [] = [] := by
        unfold chunk_pass
        rw [show pyNormalize [] = ([] : List Char) from rfl]
        rw [show blockSplit ([] : List Char) = [[]] from by decide]
        rw [List.filterMap_cons,
          (extractOne_none_iff now src []).2 (by decide)]
        rfl
      rw [hc]
      rfl
    · have ht' : text.isEmpty = false := by
        cases h : text.isEmpty
        · rfl
        · exact absurd h ht
      unfold extract_deposits_from_text
      rw [ht']
      simp
  · cases extractOne now src (pyNormalize text) with
    | none => simp
    | some r => simp

/-- Witness for C1: a two-marker text yields exactly two records and the
markerless "Valor: R$ 7,77" yields exactly one. -/
theorem c1_witness :
    (extract_deposits_from_text ⟨2024, 1, 1⟩ ("manual_text".data)
      ("💰 Novo DEPÓSITO\nValor: R$ 10,00\n💰 Novo DEPÓSITO\nValor: R$ 20,00".data)).length
        = 2 ∧
    (extract_deposits_from_text ⟨2024, 1, 1⟩ ("manual_text".data)
      ("Valor: R$ 7,77".data)).length = 1 := by
  constructor
  · obtain ⟨c1, c2, r1, r2, hf, h1, h2, he⟩ :=
      (c1_parse_structure ⟨2024, 1, 1⟩ ("manual_text".data)
        ("💰 Novo DEPÓSITO\nValor: R$ 10,00\n💰 Novo DEPÓSITO\nValor: R$ 20,00".data)).1
        (by decide)
    rw [he]
    rfl
  · exact ((c1_parse_structure ⟨2024, 1, 1⟩ ("manual_text".data)
      ("Valor: R$ 7,77".data)).2.1 (by decide) (by decide) (by decide)).2.2

/-- Counterexample bounding C1 as stated: on the markerless text
"Valor: R$ 7,77" the block split returns the whole text as its single chunk,
the per-chunk pass itself already produces the record (it is nonempty), and
the parse result IS that per-chunk output — so the whole-text fallback, which
the code reaches only when the per-chunk pass is empty, does not run even
once for such a text. -/
theorem c1_counterexample :
    blockSplit (pyNormalize ("Valor: R$ 7,77".data)) =
      [pyNormalize ("Valor: R$ 7,77".data)] ∧
    chunk_pass ⟨2024, 1, 1⟩ ("manual_text".data) ("Valor: R$ 7,77".data) ≠ [] ∧
    extract_deposits_from_text ⟨2024, 1, 1⟩ ("manual_text".data)
        ("Valor: R$ 7,77".data) =
      chunk_pass ⟨2024, 1, 1⟩ ("manual_text".data) ("Valor: R$ 7,77".data) := by
  refine ⟨by decide, by decide, by decide⟩

/-- `strLt` (BINARY string order) is irreflexive. -/
theorem strLt_irrefl : ∀ l : List Char, strLt l l = false
  | [] => rfl
  | a :: t => by
    unfold strLt
    rw [strLt_irrefl t]
    simp

/-- The upper string bound of `month_range` is excluded from the month. -/
theorem inMonthB_upper_excluded (y m : Nat) :
    inMonthB y m (month_range y m).2 = false := by
  unfold inMonthB
  rw [strLt_irrefl]
  simp

/-- Claim C3 (amended): for rows whose dates are valid calendar dates,
`sum_payments_for_month y m` (and likewise `sum_expenses_for_month`) is the
sum over exactly the rows of month `m` of year `y`; the empty sum is `0`, a
row on the last day of the month is counted, and the lower endpoint of the
following month — `month_range`'s exclusive upper bound, with December
rolling to January of `y+1` — is not. The boundary case `y = 9999, m = 12`
must be excluded: there the five-digit upper bound "10000-01-01" breaks the
string comparison (see the counterexample). -/
theorem c3_monthly_sums (y m : Nat)
    (hm1 : 1 ≤ m) (hm2 : m ≤ 12) (hy1 : 1 ≤ y) (hy2 : y ≤ 9999)
    (hno : ¬(y = 9999 ∧ m = 12))
    (prows erows : List (Date × ℚ))
    (hp : ∀ p ∈ prows, validDate p.1 = true)
    (he : ∀ p ∈ erows, validDate p.1 = true) :
    sum_payments_for_month y m (prows.map (fun p => mkPayRow p.1 p.2)) =
      ((prows.filter (fun p => p.1.year == y && p.1.month == m)).map
        (fun p => p.2)).sum ∧
    sum_expenses_for_month y m (erows.map (fun p => mkExpRow p.1 p.2)) =
      ((erows.filter (fun p => p.1.year == y && p.1.month == m)).map
        (fun p => p.2)).sum ∧
    sum_payments_for_month y m [] = 0 ∧
    inMonthB y m (dateChars y m (daysInMonth y m)) = true ∧
    inMonthB y m (month_range y m).2 = false := by
  have hdm : 1 ≤ daysInMonth y m ∧ daysInMonth y m ≤ 99 := by
    unfold daysInMonth
    split
    · split <;> omega
    · split <;> omega
  refine ⟨sum_payments_calendar y m hm1 hm2 hy1 hy2 hno prows hp,
    sum_expenses_calendar y m hm1 hm2 hy1 hy2 hno erows he, rfl, ?_,
    inMonthB_upper_excluded y m⟩
  exact (inMonthB_iff y m y m (daysInMonth y m) hm1 hm2 hy1 hy2 hno hy1 hy2
    hm1 hm2 hdm.1 hdm.2).2 ⟨rfl, rfl⟩

/-- Witness for C3 at March 2024: the March row is counted, the April 1 row
is not, and the boundary memberships hold. -/
theorem c3_witness :
    sum_payments_for_month 2024 3
      (([(⟨2024, 3, 15⟩, mkRat 7 1), (⟨2024, 4, 1⟩, mkRat 9 1)] :
          List (Date × ℚ)).map (fun p => mkPayRow p.1 p.2)) =
      ((([(⟨2024, 3, 15⟩, mkRat 7 1), (⟨2024, 4, 1⟩, mkRat 9 1)] :
          List (Date × ℚ)).filter
        (fun p => p.1.year == 2024 && p.1.month == 3)).map (fun p => p.2)).sum ∧
    sum_expenses_for_month 2024 3
      (([(⟨2024, 3, 2⟩, mkRat 2 1)] : List (Date × ℚ)).map
        (fun p => mkExpRow p.1 p.2)) =
      ((([(⟨2024, 3, 2⟩, mkRat 2 1)] : List (Date × ℚ)).filter
        (fun p => p.1.year == 2024 && p.1.month == 3)).map (fun p => p.2)).sum ∧
    sum_payments_for_month 2024 3 [] = 0 ∧
    inMonthB 2024 3 (dateChars 2024 3 (daysInMonth 2024 3)) = true ∧
    inMonthB 2024 3 (month_range 2024 3).2 = false :=
  c3_monthly_sums 2024 3 (by decide) (by decide) (by decide) (by decide)
    (by decide) [(⟨2024, 3, 15⟩, mkRat 7 1), (⟨2024, 4, 1⟩, mkRat 9 1)]
    [(⟨2024, 3, 2⟩, mkRat 2 1)] (by decide) (by decide)

/-- Counterexample bounding C3 as stated: in December 9999 `month_range`
renders the five-character year 10000, "9999-12-15" is NOT string-less-than
"10000-01-01" (byte '9' > byte '1'), and the valid mid-December payment is
silently dropped from the sum. -/
theorem c3_counterexample :
    month_range 9999 12 = (("9999-12-01".data), ("10000-01-01".data)) ∧
    strLt ("9999-12-15".data) ("10000-01-01".data) = false ∧
    validDate ⟨9999, 12, 15⟩ = true ∧
    sum_payments_for_month 9999 12 [mkPayRow ⟨9999, 12, 15⟩ (mkRat 5 1)] = 0 ∧
    mkRat 5 1 ≠ 0 := by
  refine ⟨by decide, by decide, by decide, by decide, by decide⟩

set_option maxHeartbeats 1600000 in
/-- Claim C4 (amended): `cleanup_old_months` computes the cutoff by integer
month arithmetic — the first-of-month exactly `keep` months before the
current first-of-month — and deletes exactly the rows (of both tables) whose
month index `year*12 + month` is strictly below `nowY*12 + nowM - keep`.
Consequently a record EXACTLY `keep` months old by first-of-month arithmetic
sits exactly on the cutoff and is RETAINED (deletion is strict `<`), contrary
to the spec's "removed"; records less than `keep` months old are retained
too. -/
theorem c4_retention_cutoff (nowY nowM keep : Int)
    (hk : 0 ≤ keep) (hlo : keep + 13 ≤ nowY * 12 + nowM)
    (hhi : nowY ≤ 9999) (hm2 : nowM ≤ 12)
    (prows erows : List (Date × ℚ))
    (hp : ∀ p ∈ prows, validDate p.1 = true)
    (he : ∀ p ∈ erows, validDate p.1 = true) :
    cleanup_old_months nowY nowM keep (prows.map (fun p => mkPayRow p.1 p.2))
        (erows.map (fun p => mkExpRow p.1 p.2)) =
      ((prows.filter (fun p =>
          decide (nowY * 12 + nowM - keep ≤ (p.1.year : Int) * 12 + p.1.month))).map
        (fun p => mkPayRow p.1 p.2),
       (erows.filter (fun p =>
          decide (nowY * 12 + nowM - keep ≤ (p.1.year : Int) * 12 + p.1.month))).map
        (fun p => mkExpRow p.1 p.2)) ∧
    (∀ d : Date, validDate d = true →
      (d.year : Int) * 12 + (d.month : Int) = nowY * 12 + nowM - keep →
      (!(strLt d.toChars (cleanup_cutoff nowY nowM keep))) = true) := by
  obtain ⟨cy, cm, hcut, hcm1, hcm2, hcy1, hcy2, hidx⟩ :=
    cleanup_cutoff_spec nowY nowM keep hk hlo hhi hm2
  have key : ∀ d : Date, validDate d = true →
      (!(strLt d.toChars (cleanup_cutoff nowY nowM keep))) =
        decide (nowY * 12 + nowM - keep ≤ (d.year : Int) * 12 + (d.month : Int)) := by
    intro d hd
    obtain ⟨h1, h2, h3, h4, h5, h6⟩ := validDate_bounds hd
    have hiff := strLt_dateChars_iff d.year d.month d.day cy cm 1 (by omega)
      (by omega) (by omega) (by omega) (by omega) (by omega)
    rw [hcut]
    show (!(strLt (dateChars d.year d.month d.day) (dateChars cy cm 1))) = _
    cases hs : strLt (dateChars d.year d.month d.day) (dateChars cy cm 1) with
    | false =>
      rw [Bool.not_false]
      symm
      simp only [decide_eq_true_eq]
      have hn : ¬(d.year < cy ∨ (d.year = cy ∧ (d.month < cm ∨
          (d.month = cm ∧ d.day < 1)))) := by
        rw [← hiff]
        simp [hs]
      omega
    | true =>
      rw [Bool.not_true]
      symm
      simp only [decide_eq_false_iff_not]
      have hyes := hiff.mp hs
      omega
  constructor
  · simp only [cleanup_old_months]
    rw [Prod.mk.injEq]
    constructor
    · refine filter_map_comm (fun p => mkPayRow p.1 p.2)
        (fun r => !(strLt r.date (cleanup_cutoff nowY nowM keep)))
        (fun p => decide (nowY * 12 + nowM - keep ≤ (p.1.year : Int) * 12 + p.1.month))
        prows (fun x hx => ?_)
      show (!(strLt x.1.toChars (cleanup_cutoff nowY nowM keep))) = _
      exact key x.1 (hp x hx)
    · refine filter_map_comm (fun p => mkExpRow p.1 p.2)
        (fun r => !(strLt r.date (cleanup_cutoff nowY nowM keep)))
        (fun p => decide (nowY * 12 + nowM - keep ≤ (p.1.year : Int) * 12 + p.1.month))
        erows (fun x hx => ?_)
      show (!(strLt x.1.toChars (cleanup_cutoff nowY nowM keep))) = _
      exact key x.1 (he x hx)
  · intro d hd hidx'
    rw [key d hd]
    simp only [decide_eq_true_eq]
    omega

/-- Witness for C4 with `keep = 6` in October 2024: deletion keeps exactly
the rows with month index at least April 2024, and the exactly-six-months-old
date 2024-04-01 is on the cutoff and so retained. -/
theorem c4_witness :
    cleanup_old_months 2024 10 6
        (([(⟨2024, 3, 15⟩, mkRat 5 1), (⟨2024, 4, 1⟩, mkRat 3 1)] :
            List (Date × ℚ)).map (fun p => mkPayRow p.1 p.2))
        (([] : List (Date × ℚ)).map (fun p => mkExpRow p.1 p.2)) =
      ((([(⟨2024, 3, 15⟩, mkRat 5 1), (⟨2024, 4, 1⟩, mkRat 3 1)] :
            List (Date × ℚ)).filter (fun p =>
          decide ((2024 : Int) * 12 + 10 - 6 ≤ (p.1.year : Int) * 12 + p.1.month))).map
        (fun p => mkPayRow p.1 p.2),
       (([] : List (Date × ℚ)).filter (fun p =>
          decide ((2024 : Int) * 12 + 10 - 6 ≤ (p.1.year : Int) * 12 + p.1.month))).map
        (fun p => mkExpRow p.1 p.2)) ∧
    (!(strLt (Date.toChars ⟨2024, 4, 1⟩) (cleanup_cutoff 2024 10 6))) = true := by
  have h := c4_retention_cutoff 2024 10 6 (by decide) (by decide) (by decide)
    (by decide) [(⟨2024, 3, 15⟩, mkRat 5 1), (⟨2024, 4, 1⟩, mkRat 3 1)] []
    (by decide) (by decide)
  exact ⟨h.1, h.2 ⟨2024, 4, 1⟩ (by decide) (by decide)⟩

/-- Counterexample bounding C4 as stated: with `keep = 6` in October 2024 the
cutoff is 2024-04-01, and a record dated exactly 6 months back by
first-of-month arithmetic — 2024-04-01 itself — is RETAINED by the strict
`date < cutoff` deletion, not removed as the spec asserts. -/
theorem c4_counterexample :
    cleanup_cutoff 2024 10 6 = ("2024-04-01".data) ∧
    (cleanup_old_months 2024 10 6
        [⟨("2024-04-01".data), mkRat 5 1, [], [], [], [], [], []⟩] []).1 =
      [⟨("2024-04-01".data), mkRat 5 1, [], [], [], [], [], []⟩] := by
  refine ⟨by decide, by decide⟩
